import Mathlib

/-!
Bloomfold: folded Bloom-filter sketches and their similarity estimators.

A shallow embedding of `cmd/fold/folded.go`, `cmd/fold/main.go` and
`cmd/fold2/main.go` (whose `BloomSet` code repeats that of `cmd/fold`).

Conventions of the embedding.

* A `uint64` word is a natural number; the only word operations of the source are
  bitwise and / or and the population count over the 64 bit positions, none of
  which can wrap around.
* A similarity score is modelled in exact arithmetic by `F64`: a rational value,
  the positive infinity, or NaN.  Every score of the source is a quotient of two
  non-negative integer counters, so no other value can arise; rounding of the
  quotient is not modelled.
* Where rounding decides the result, in the accumulators of the aggregator and
  in `FoldFilter`, a `float64` is a `Float64`: IEEE 754 binary64 with rounding to
  nearest, ties to even, overflow to infinity and gradual underflow; the two
  signed zeros are identified.  The natural logarithm `math.Log`, whose rounding
  the library does not document, is a parameter.
* A Go `map[string]T` is an association list with pairwise different keys
  (`GoMap`).  The order in which `range` visits a map and the permutation that
  `sort.Slice` picks among equal scores are not fixed by the language: both are
  taken from a `Runtime`, and theorems hold for every runtime that obeys the
  documented contract of the two (`Runtime.Lawful`).
* A run-time panic is the `Except.error` result (`none` in the aggregator).
* The goroutines and channels of `parallelCollect` are a transition system
  (`Pipe`, `Action`): a schedule is a list of atomic steps of the goroutines, and
  a run along a schedule is computed by `Pipe.run`.
-/

namespace Bloomfold

/-! ## Words and floats -/

/-- Population count of a 64-bit word (`bits.OnesCount64`): the number of bit
positions below 64 that are set. -/
def OnesCount64 (x : Nat) : Nat :=
  (List.range 64).countP (fun i => x.testBit i)

/-- Exact-arithmetic model of the `float64` values that the program can produce. -/
inductive F64 where
  | nan : F64
  | posInf : F64
  | fin (q : ℚ) : F64
deriving DecidableEq

/-- The quotient `float64(n) / float64(d)` of two non-negative integers:
`0/0` is NaN and `n/0` is `+Inf` for a positive `n`. -/
def F64.divNat (n d : Nat) : F64 :=
  if d = 0 then (if n = 0 then F64.nan else F64.posInf)
  else F64.fin ((n : ℚ) / (d : ℚ))

/-- The comparison `x >= y` of two floats; false as soon as one side is NaN. -/
def F64.ge : F64 → F64 → Bool
  | F64.fin a, F64.fin b => decide (b ≤ a)
  | F64.posInf, F64.fin _ => true
  | F64.posInf, F64.posInf => true
  | _, _ => false

/-- The comparison `x > y` of two floats; false as soon as one side is NaN. -/
def F64.gt : F64 → F64 → Bool
  | F64.fin a, F64.fin b => decide (b < a)
  | F64.posInf, F64.fin _ => true
  | _, _ => false

/-- The constant `CompThreshold = 0.95`. -/
def CompThreshold : F64 := F64.fin (19 / 20)

/-! ## IEEE 754 binary64 -/

/-- A `float64` with its rounding: NaN, the infinity of either sign, or a finite
value given by the rational it denotes.  The operations below return
representable values only. -/
inductive Float64 where
  | nan : Float64
  | inf (neg : Bool) : Float64
  | fin (q : ℚ) : Float64
deriving DecidableEq

/-- Rounding of a rational to the nearest integer, a tie going to the even one. -/
def roundHalfEven (s : ℚ) : Int :=
  if s - (⌊s⌋ : ℚ) < 1 / 2 then ⌊s⌋
  else if 1 / 2 < s - (⌊s⌋ : ℚ) then ⌊s⌋ + 1
  else if ⌊s⌋ % 2 = 0 then ⌊s⌋ else ⌊s⌋ + 1

/-- The binary64 value of an exact result `q`: with `2^e <= |q| < 2^(e+1)` the
unit in the last place is `2^(e - 52)`, and `2^(-1074)` in the subnormal range;
`q` is rounded to the nearest multiple of it, ties to even, and a result of
magnitude `2^1024` or more is an infinity. -/
def Float64.round (q : ℚ) : Float64 :=
  if q = 0 then Float64.fin 0
  else
    let u : Int := max (Int.log 2 |q| - 52) (-1074)
    let v : ℚ := (roundHalfEven (q / (2 : ℚ) ^ u) : ℚ) * (2 : ℚ) ^ u
    if (2 : ℚ) ^ (1024 : Nat) ≤ |v| then Float64.inf (decide (q < 0)) else Float64.fin v

/-- The conversion `float64(n)` of an integer. -/
def Float64.ofInt (n : Int) : Float64 := Float64.round (n : ℚ)

/-- The sum `x + y`. -/
def Float64.add : Float64 → Float64 → Float64
  | Float64.fin a, Float64.fin b => Float64.round (a + b)
  | Float64.fin _, Float64.inf s => Float64.inf s
  | Float64.inf s, Float64.fin _ => Float64.inf s
  | Float64.inf s, Float64.inf t => if s = t then Float64.inf s else Float64.nan
  | _, _ => Float64.nan

/-- The product `x * y`. -/
def Float64.mul : Float64 → Float64 → Float64
  | Float64.fin a, Float64.fin b => Float64.round (a * b)
  | Float64.fin a, Float64.inf s =>
    if a = 0 then Float64.nan else Float64.inf (decide (a < 0) != s)
  | Float64.inf s, Float64.fin b =>
    if b = 0 then Float64.nan else Float64.inf (s != decide (b < 0))
  | Float64.inf s, Float64.inf t => Float64.inf (s != t)
  | _, _ => Float64.nan

/-- The quotient `x / y`; a zero divisor is the positive zero. -/
def Float64.div : Float64 → Float64 → Float64
  | Float64.fin a, Float64.fin b =>
    if b = 0 then (if a = 0 then Float64.nan else Float64.inf (decide (a < 0)))
    else Float64.round (a / b)
  | Float64.fin _, Float64.inf _ => Float64.fin 0
  | Float64.inf s, Float64.fin b => Float64.inf (s != decide (b < 0))
  | _, _ => Float64.nan

/-- `math.Frexp`: a finite non-zero `x` is `frac * 2^exp` with `1/2 <= |frac| < 1`;
zero, the infinities and NaN are returned with exponent 0. -/
def Float64.Frexp : Float64 → Float64 × Int
  | Float64.fin q =>
    if q = 0 then (Float64.fin 0, 0)
    else (Float64.fin (q / (2 : ℚ) ^ (Int.log 2 |q| + 1)), Int.log 2 |q| + 1)
  | x => (x, 0)

/-- The constant `math.Ln2`. -/
def Ln2 : ℚ := 693147180559945309417232121458176568 / 10 ^ 36

/-- `math.Log2`, as the library defines it: `frac, exp := Frexp(x)`, the exact
answer `float64(exp - 1)` when `frac == 0.5` and `Log(frac)*(1/Ln2) +
float64(exp)` otherwise, where `Log` is the natural logarithm of the library and
`1/Ln2` is a constant rounded once. -/
def Float64.Log2 (Log : Float64 → Float64) (x : Float64) : Float64 :=
  if (Float64.Frexp x).1 = Float64.fin (1 / 2) then Float64.ofInt ((Float64.Frexp x).2 - 1)
  else
    Float64.add (Float64.mul (Log (Float64.Frexp x).1) (Float64.round (1 / Ln2)))
      (Float64.ofInt (Float64.Frexp x).2)

/-- `math.Pow(2.0, math.Ceil(x))`.  `Ceil` returns an integral value, an infinity
or NaN; for an integer `n` the power `2^n` is exact in the binary64 range, it
overflows to `+Inf` from `n = 1024` on and underflows to zero below `n = -1074`;
`Pow(2, +Inf)` is `+Inf` and `Pow(2, -Inf)` is zero. -/
def Float64.pow2Ceil : Float64 → Float64
  | Float64.nan => Float64.nan
  | Float64.inf false => Float64.inf false
  | Float64.inf true => Float64.fin 0
  | Float64.fin q =>
    if 1024 ≤ ⌈q⌉ then Float64.inf false
    else if ⌈q⌉ < -1074 then Float64.fin 0
    else Float64.fin ((2 : ℚ) ^ ⌈q⌉)

/-- The conversion `uint64(f)`: the fraction is discarded; `none` where the value
does not fit and the language leaves the result implementation-dependent. -/
def Float64.toUint64 : Float64 → Option Nat
  | Float64.fin q => if -1 < q ∧ q < (2 : ℚ) ^ (64 : Nat) then some ⌊q⌋.toNat else none
  | _ => none

/-- The `float64` operations that the aggregator of `parallelCollect` uses, over a
carrier `α`: the zero that `make` stores, the addition of `+=` and the conversion
`float64(r.result)`. -/
structure FloatArith (α : Type) where
  zero : α
  add : α → α → α
  ofInt : Int → α

/-- The arithmetic of the code: binary64. -/
def Float64.arith : FloatArith Float64 :=
  ⟨Float64.fin 0, Float64.add, Float64.ofInt⟩

/-- Exact arithmetic on the rationals, the reading under which the specification
states some of its properties. -/
def exactArith : FloatArith ℚ :=
  ⟨0, fun a b => a + b, fun n => (n : ℚ)⟩

/-! ## Go maps -/

/-- A Go map with string keys, as an association list. -/
abbrev GoMap (ν : Type) := List (String × ν)

/-- The keys of a map. -/
def GoMap.keys {ν : Type} (m : GoMap ν) : List String := m.map Prod.fst

/-- The two-result lookup `v, ok := m[k]`. -/
def GoMap.find {ν : Type} : GoMap ν → String → Option ν
  | [], _ => none
  | (k', v) :: rest, k => if k' = k then some v else GoMap.find rest k

/-- The read `m[k]`, which yields the zero value of the element type for an absent key. -/
def GoMap.index {ν : Type} (m : GoMap ν) (k : String) (zero : ν) : ν :=
  (GoMap.find m k).getD zero

/-- The assignment `m[k] = v`: overwrites the entry of `k`, or adds one. -/
def GoMap.store {ν : Type} : GoMap ν → String → ν → GoMap ν
  | [], k, v => [(k, v)]
  | (k', v') :: rest, k, v =>
    if k' = k then (k, v) :: rest else (k', v') :: GoMap.store rest k v

/-- The choices that the Go runtime and library make for the program: the order in
which `range` visits the entries of a map, and the result of `sort.Slice` on a
slice of keys for a given `less` (here a function of the two elements, as every
`less` closure of the source only reads `keys[i]` and `keys[j]`). -/
structure Runtime where
  range : {ν : Type} → GoMap ν → List (String × ν)
  sortSlice : List String → (String → String → Bool) → List String

/-- A `less` function that is a strict weak ordering, which is what `sort.Slice`
requires of its argument. -/
structure StrictWeak (less : String → String → Bool) : Prop where
  irrefl : ∀ a, less a a = false
  trans : ∀ a b c, less a b = true → less b c = true → less a c = true
  incomp : ∀ a b c, less a b = true → less a c = true ∨ less c b = true

/-- The documented contract of `range` and `sort.Slice`: `range` visits every
entry of the map exactly once, `sort.Slice` permutes its slice and, for a strict
weak ordering, leaves no later element less than an earlier one. -/
structure Runtime.Lawful (rt : Runtime) : Prop where
  range_perm : ∀ {ν : Type} (m : GoMap ν), (rt.range m).Perm m
  sort_perm : ∀ keys less, (rt.sortSlice keys less).Perm keys
  sort_sorted : ∀ keys less, StrictWeak less →
    (rt.sortSlice keys less).Pairwise (fun a b => less b a = false)

/-- A concrete runtime: `range` visits the entries in stored order and
`sort.Slice` is a merge sort. -/
def Runtime.simple : Runtime where
  range := fun m => m
  sortSlice := fun keys less => keys.mergeSort (fun a b => !less b a)

/-! ## `folded.go` -/

/-- Modelled from the spec: the `BloomFilter` struct is declared in a file that is
not part of the sources at hand; these are the fields that `folded.go` reads
(`size` the capacity in bits, `advised` the expected item count, `nadded` the
inserted item count, `parts` the bit vector as 64-bit words). -/
structure BloomFilter where
  size : Nat
  advised : Nat
  nadded : Nat
  parts : List Nat
deriving DecidableEq

/-- The `foldedBloomFilter` struct. -/
structure foldedBloomFilter where
  parts : List Nat
deriving DecidableEq

/-- The loop `for i, p := range orig.parts { parts[uint64(i)%mod] |= p }`, started
at index `i`. -/
def foldLoop (mod : Nat) : Nat → List Nat → List Nat → List Nat
  | _, [], parts => parts
  | i, p :: rest, parts => foldLoop mod (i + 1) rest (parts.modify (fun w => w ||| p) (i % mod))

/-- `FoldFilterWithSize`.  For a `uint64` argument `newsize / 64 < 2^58`, so the
addition in `mod` cannot wrap. -/
def FoldFilterWithSize (orig : BloomFilter) (newsize : Nat) : foldedBloomFilter :=
  let mod := 1 + newsize / 64
  let parts := List.replicate mod 0
  ⟨foldLoop mod 0 orig.parts parts⟩

/-- The loop of `Similarity` over `b.parts`, started at index `i` with the
counters `numer` and `denom`; reading `a.parts[i]` past the end panics. -/
def simLoop (aparts : List Nat) : Nat → List Nat → Nat × Nat → Except String (Nat × Nat)
  | _, [], acc => Except.ok acc
  | i, x :: rest, acc =>
    match aparts[i]? with
    | none => Except.error "index out of range"
    | some y =>
      simLoop aparts (i + 1) rest (acc.1 + OnesCount64 (x &&& y), acc.2 + OnesCount64 (x ||| y))

/-- `(b *foldedBloomFilter) Similarity(a)`.  The `int` counters are bounded by 64
times the slice length and cannot overflow for a slice that fits in memory. -/
def foldedBloomFilter.Similarity (b a : foldedBloomFilter) : Except String F64 :=
  if a.parts.length ≠ b.parts.length then Except.error "cannot compare"
  else
    match simLoop a.parts 0 b.parts (0, 0) with
    | Except.error e => Except.error e
    | Except.ok nd => Except.ok (F64.divNat nd.1 nd.2)

/-- `FoldFilter`.  `Log` is `math.Log`; the result is `none` where the conversion
to `uint64` is implementation-dependent. -/
def FoldFilter (Log : Float64 → Float64) (orig : BloomFilter) : Option foldedBloomFilter :=
  let bitsPerItem := Float64.div (Float64.ofInt orig.size) (Float64.ofInt orig.advised)
  match Float64.toUint64 (Float64.pow2Ceil
      (Float64.Log2 Log (Float64.mul bitsPerItem (Float64.ofInt orig.nadded)))) with
  | none => none
  | some newsize => some (FoldFilterWithSize orig newsize)

/-! ## `main.go` -/

/-- The `BloomSet` struct. -/
structure BloomSet where
  sz : Int
  bf : GoMap BloomFilter
  foldbits : Nat
  folds : GoMap foldedBloomFilter

/-- Modelled from the spec: the methods `Advise`, `ErrorRate` and `Learn` of
`BloomFilter` are defined in a file that is not part of the sources at hand; they
are taken as deterministic state transformers of the sketch. -/
structure SketchOps where
  Advise : BloomFilter → Int → BloomFilter
  ErrorRate : BloomFilter → ℚ → BloomFilter
  Learn : BloomFilter → String → BloomFilter

/-- The sketch construction shared by `Add` and the `BestMatches` methods:
`bf := &BloomFilter{}; bf.Advise(sz); bf.ErrorRate(0.01)` and one `Learn` per item. -/
def newSketch (ops : SketchOps) (sz : Int) (data : List String) : BloomFilter :=
  data.foldl ops.Learn (ops.ErrorRate (ops.Advise ⟨0, 0, 0, []⟩ sz) (1 / 100))

/-- `(s *BloomSet) Add(key, data)`. -/
def BloomSet.Add (ops : SketchOps) (s : BloomSet) (key : String) (data : List String) : BloomSet :=
  { s with bf := GoMap.store s.bf key (newSketch ops s.sz data) }

/-- `(s *BloomSet) FoldAll(bitsize)`. -/
def BloomSet.FoldAll (rt : Runtime) (s : BloomSet) (bitsize : Nat) : BloomSet :=
  { s with
    foldbits := bitsize
    folds := (rt.range s.bf).foldl
      (fun folds e => GoMap.store folds e.1 (FoldFilterWithSize e.2 bitsize)) [] }

/-- The variables `res`, `keys` and `comps` of a `BestMatches` function while it
ranges over the stored entries. -/
structure MatchState where
  res : GoMap F64
  keys : List String
  comps : Nat

/-- The state before the first entry is visited. -/
def MatchState.init : MatchState := ⟨[], [], 0⟩

/-- The common tail of the three `BestMatches` functions: sort the keys by
descending score, keep the first `topn` and collect their scores.  The slice
expression `keys[:topn]` panics for a negative `topn`. -/
def rankTopN (rt : Runtime) (st : MatchState) (topn : Int) :
    Except String (List String × List F64 × Nat) :=
  let res := st.res
  let keys := rt.sortSlice st.keys
    (fun a b => F64.gt (GoMap.index res a (F64.fin 0)) (GoMap.index res b (F64.fin 0)))
  if (keys.length : Int) > topn then
    if topn < 0 then Except.error "slice bounds out of range"
    else
      let keys := keys.take topn.toNat
      Except.ok (keys, keys.map (fun k => GoMap.index res k (F64.fin 0)), st.comps)
  else
    Except.ok (keys, keys.map (fun k => GoMap.index res k (F64.fin 0)), st.comps)

/-- One iteration of the loop of `FoldedBestMatches` over `s.folds`. -/
def foldedStep (foldedQuery : foldedBloomFilter) (st : MatchState)
    (e : String × foldedBloomFilter) : Except String MatchState :=
  match e.2.Similarity foldedQuery with
  | Except.error msg => Except.error msg
  | Except.ok sim =>
    Except.ok
      { res := GoMap.store st.res e.1 sim
        keys := st.keys ++ [e.1]
        comps := if F64.ge sim CompThreshold then st.comps + 1 else st.comps }

/-- The loop of `FoldedBestMatches` over the entries in visiting order. -/
def foldedLoop (foldedQuery : foldedBloomFilter) :
    List (String × foldedBloomFilter) → MatchState → Except String MatchState
  | [], st => Except.ok st
  | e :: rest, st =>
    match foldedStep foldedQuery st e with
    | Except.error msg => Except.error msg
    | Except.ok st1 => foldedLoop foldedQuery rest st1

/-- `(s *BloomSet) FoldedBestMatches(data, topn)`. -/
def BloomSet.FoldedBestMatches (rt : Runtime) (ops : SketchOps) (s : BloomSet)
    (data : List String) (topn : Int) : Except String (List String × List F64 × Nat) :=
  let query := newSketch ops s.sz data
  let foldedQuery := FoldFilterWithSize query s.foldbits
  match foldedLoop foldedQuery (rt.range s.folds) MatchState.init with
  | Except.error msg => Except.error msg
  | Except.ok st => rankTopN rt st topn

/-- The set `query` of the exact `BestMatches`, a `map[string]struct{}` filled
with the items of `data`. -/
def querySet (data : List String) : GoMap Unit :=
  data.foldl (fun q x => GoMap.store q x ()) []

/-- The inner loop of the exact `BestMatches` over one entry `other`: the final
values of the float counters `numer` and `denom`, which hold whole numbers. -/
def countLoop (query : GoMap Unit) (other : List String) : Nat × Nat :=
  other.foldl
    (fun nd x => if (GoMap.find query x).isSome then (nd.1 + 1, nd.2) else (nd.1, nd.2 + 1))
    (0, query.length)

/-- The score `numer / denom` that the exact `BestMatches` stores for an entry. -/
def exactScore (query : GoMap Unit) (other : List String) : F64 :=
  F64.divNat (countLoop query other).1 (countLoop query other).2

/-- One iteration of the loop of the exact `BestMatches` over `dataset`. -/
def exactStep (query : GoMap Unit) (st : MatchState) (e : String × List String) : MatchState :=
  let nd := countLoop query e.2
  let res := GoMap.store st.res e.1 (F64.divNat nd.1 nd.2)
  { res := res
    keys := st.keys ++ [e.1]
    comps :=
      if decide (0 < nd.2) && F64.ge (GoMap.index res e.1 (F64.fin 0)) CompThreshold
      then st.comps + 1 else st.comps }

/-- The exact `BestMatches(dataset, data, topn)` of `cmd/fold/main.go`. -/
def BestMatches (rt : Runtime) (dataset : GoMap (List String)) (data : List String)
    (topn : Int) : Except String (List String × List F64 × Nat) :=
  let query := querySet data
  rankTopN rt ((rt.range dataset).foldl (exactStep query) MatchState.init) topn

/-! ## `cmd/fold2/main.go` -/

/-- The constant `SizeGroupSplits = 3`. -/
def SizeGroupSplits : Nat := 3

/-- The constant `SizeGroups = 50`. -/
def SizeGroups : Nat := 50

/-- The exact `BestMatches(dataset, data, topn)` of `cmd/fold2/main.go`, which
only counts the comparisons that reach the threshold and never reads `topn`. -/
def Fold2.BestMatches (rt : Runtime) (dataset : GoMap (List String)) (data : List String)
    (_topn : Int) : Nat :=
  let query := querySet data
  (rt.range dataset).foldl
    (fun comps e =>
      let nd := countLoop query e.2
      let sim := F64.divNat nd.1 nd.2
      if decide (0 < nd.2) && F64.ge sim CompThreshold then comps + 1 else comps)
    0

/-- The local type `rec` of `parallelCollect`: the key and item list of a unit of
work, its result count (a Go `int`) and its elapsed time in seconds, a float of
the arithmetic `α`. -/
structure Rec (α : Type) where
  key : String
  data : List String
  result : Int
  elap : α
deriving DecidableEq

/-- The two result slices of `parallelCollect`, of type `[]float64`. -/
structure Totals (α : Type) where
  totalTime : List α
  totalCount : List α
deriving DecidableEq

/-- The slices right after `make([]float64, SizeGroupSplits+1)`. -/
def Totals.init {α : Type} (ar : FloatArith α) : Totals α :=
  ⟨List.replicate (SizeGroupSplits + 1) ar.zero, List.replicate (SizeGroupSplits + 1) ar.zero⟩

/-- The bucket index of the aggregator: `g := 1 + (len(r.data) / SizeGroups)`,
capped at `SizeGroupSplits`. -/
def sizeGroup (n : Nat) : Nat :=
  let g := 1 + n / SizeGroups
  if g > SizeGroupSplits then SizeGroupSplits else g

/-- The update `xs[i] += v`; `none` is the index-out-of-range panic. -/
def addAt {α : Type} (ar : FloatArith α) (xs : List α) (i : Nat) (v : α) : Option (List α) :=
  if i < xs.length then some (xs.modify (fun x => ar.add x v) i) else none

/-- The body of the aggregator loop for one received record. -/
def aggStep {α : Type} (ar : FloatArith α) (t : Totals α) (r : Rec α) : Option (Totals α) :=
  match addAt ar t.totalCount 0 (ar.ofInt r.result), addAt ar t.totalTime 0 r.elap with
  | some totalCount, some totalTime =>
    let g := sizeGroup r.data.length
    match addAt ar totalCount g (ar.ofInt r.result), addAt ar totalTime g r.elap with
    | some totalCount, some totalTime => some ⟨totalTime, totalCount⟩
    | _, _ => none
  | _, _ => none

/-- The aggregator loop over the records in arrival order. -/
def aggregate {α : Type} (ar : FloatArith α) : Totals α → List (Rec α) → Option (Totals α)
  | t, [] => some t
  | t, r :: rest =>
    match aggStep ar t r with
    | none => none
    | some t1 => aggregate ar t1 rest

/-- How a run of `parallelCollect` stands: still running, returned with the two
slices, or crashed by a panic in one of its goroutines. -/
inductive Outcome where
  | running : Outcome
  | returned (t : Totals Float64) : Outcome
  | crashed : Outcome
deriving DecidableEq

/-- The state of a run of `parallelCollect`.
`pending` are the entries that the caller has still to send on `inchan`;
`computing` are the workers that were started and have not yet called
`wg.Done()` (their number is the counter of the inner wait group);
`sending` are the workers that have called `wg.Done()` and have not yet
completed `outchan <- rx`; `totals` are the slices of the aggregator. -/
structure Pipe where
  pending : List (String × List String)
  inClosed : Bool
  computing : List (Rec Float64)
  sending : List (Rec Float64)
  outClosed : Bool
  totals : Totals Float64
  outcome : Outcome
deriving DecidableEq

/-- The atomic steps of the goroutines of `parallelCollect`; a schedule is a list
of them.
`submit`: the caller sends the next entry on `inchan`, the dispatcher receives
it, does `wg.Add(1)` and starts a worker.
`closeIn`: the caller has sent every entry and closes `inchan`.
`work i elap`: the `i`-th computing worker finishes `eachFunc`, measured at
`elap` seconds, and calls `wg.Done()`.
`deliver i`: the send `outchan <- rx` of the `i`-th sending worker meets the
receive of the aggregator, which runs its loop body.
`closeOut`: the dispatcher has left its loop, `wg.Wait()` returns because no
worker is computing, and it closes `outchan`.
`sendOnClosed i`: the `i`-th sending worker reaches its send after `outchan` was
closed, which panics.
`finish`: the aggregator finds `outchan` closed and calls `wg.Done()`, the caller
returns the slices. -/
inductive Action where
  | submit : Action
  | closeIn : Action
  | work (i : Nat) (elap : Float64) : Action
  | deliver (i : Nat) : Action
  | closeOut : Action
  | sendOnClosed (i : Nat) : Action
  | finish : Action
deriving DecidableEq

/-- The state when `parallelCollect` has started its goroutines; the caller will
send the entries of `dataset` in the order of its `range` loop. -/
def Pipe.start (rt : Runtime) (dataset : GoMap (List String)) : Pipe :=
  { pending := rt.range dataset, inClosed := false, computing := [], sending := [],
    outClosed := false, totals := Totals.init Float64.arith, outcome := Outcome.running }

/-- One step of a run; `none` when the step is not enabled in the state. -/
def Pipe.step (eachFunc : String → List String → Int) (p : Pipe) : Action → Option Pipe
  | Action.submit =>
    match p.outcome, p.inClosed, p.pending with
    | Outcome.running, false, e :: rest =>
      some { p with
        pending := rest
        computing := p.computing ++ [⟨e.1, e.2, 0, Float64.fin 0⟩] }
    | _, _, _ => none
  | Action.closeIn =>
    match p.outcome, p.inClosed, p.pending with
    | Outcome.running, false, [] => some { p with inClosed := true }
    | _, _, _ => none
  | Action.work i elap =>
    match p.outcome, p.computing[i]? with
    | Outcome.running, some rx =>
      some { p with
        computing := p.computing.eraseIdx i
        sending := p.sending ++ [{ rx with result := eachFunc rx.key rx.data, elap := elap }] }
    | _, _ => none
  | Action.deliver i =>
    match p.outcome, p.outClosed, p.sending[i]? with
    | Outcome.running, false, some rx =>
      match aggStep Float64.arith p.totals rx with
      | some t => some { p with sending := p.sending.eraseIdx i, totals := t }
      | none => some { p with outcome := Outcome.crashed }
    | _, _, _ => none
  | Action.closeOut =>
    match p.outcome, p.inClosed, p.outClosed, p.computing with
    | Outcome.running, true, false, [] => some { p with outClosed := true }
    | _, _, _, _ => none
  | Action.sendOnClosed i =>
    match p.outcome, p.outClosed, p.sending[i]? with
    | Outcome.running, true, some _ => some { p with outcome := Outcome.crashed }
    | _, _, _ => none
  | Action.finish =>
    match p.outcome, p.outClosed with
    | Outcome.running, true => some { p with outcome := Outcome.returned p.totals }
    | _, _ => none

/-- A run along a schedule; `none` when a step of the schedule is not enabled. -/
def Pipe.run (eachFunc : String → List String → Int) : Pipe → List Action → Option Pipe
  | p, [] => some p
  | p, a :: rest =>
    match Pipe.step eachFunc p a with
    | none => none
    | some p1 => Pipe.run eachFunc p1 rest

/-! ## Sample data -/

/-- A dataset of three entries over the items `a` to `d`. -/
def sampleDataset : GoMap (List String) :=
  [("x", ["a", "b", "c"]), ("y", ["b", "c", "d"]), ("z", ["d"])]

/-- A small sketch implementation for concrete runs: two words, and `Learn` sets
the lowest bit of the word selected by the parity of the item length. -/
def toyOps : SketchOps where
  Advise := fun bf n => { bf with advised := n.toNat }
  ErrorRate := fun bf _ => { bf with size := 128, parts := [0, 0] }
  Learn := fun bf x =>
    { bf with nadded := bf.nadded + 1
              parts := bf.parts.modify (fun w => w ||| 1) (x.length % 2) }

/-- A collection of two sketches that carries a stale folded mapping. -/
def sampleSet : BloomSet :=
  ⟨10, [("x", ⟨128, 10, 1, [0, 1]⟩), ("y", ⟨128, 10, 2, [1, 1]⟩)], 7, [("old", ⟨[5]⟩)]⟩

/-- A record with the result `2^53` and an empty item list. -/
def bigRec : Rec Float64 := ⟨"a", [], 2 ^ 53, Float64.fin 0⟩

/-- A record with the result 1 and an empty item list, under the key `k`. -/
def oneRec (k : String) : Rec Float64 := ⟨k, [], 1, Float64.fin 0⟩

/-- A sketch of 1024 bits in sixteen words, advised for 16 items, that holds 2. -/
def smallSketch : BloomFilter :=
  ⟨1024, 16, 2, [1, 2, 4, 8, 16, 32, 64, 128, 256, 512, 1024, 2048, 4096, 8192, 16384, 32768]⟩

/-- A sketch header with the size `2^60 + 1`, which is not a binary64 value,
advised for `2^54` items and holding 1, over a bit vector of three words. -/
def hugeSketch : BloomFilter := ⟨2 ^ 60 + 1, 2 ^ 54, 1, [1, 2, 4]⟩

/-- The sketch `smallSketch` after a third item: 1024 bits in sixteen words,
advised for 16 items, holding 3. -/
def midSketch : BloomFilter := { smallSketch with nadded := 3 }

/-- A natural logarithm that is known at the argument `3/4` only, where it is the
binary64 value nearest to `ln(3/4)`, and NaN elsewhere. -/
def tableLog : Float64 → Float64 := fun x =>
  if x = Float64.fin (3 / 4) then Float64.fin (-2591209748590025 / 2 ^ 53) else Float64.nan

/-- A collection without entries, configured for ten items. -/
def emptySet : BloomSet := ⟨10, [], 0, []⟩

/-! ## Specification-side notions -/


/-- The bitwise OR of the words of `src` at the indices `j` with `j % wc = i`
(zero when there is none). -/
def orAtResidue (src : List Nat) (wc i : Nat) : Nat :=
  ((src.enum.filter (fun jp => jp.1 % wc = i)).map Prod.snd).foldl (fun acc w => acc ||| w) 0

/-- The OR over the words selected for residue `i`, from a start value. -/
def orFrom (mod i : Nat) (l : List (Nat × Nat)) (w : Nat) : Nat :=
  ((l.filter (fun jp => jp.1 % mod = i)).map Prod.snd).foldl (fun acc v => acc ||| v) w

/-- Total population count of a word vector. -/
def popcount (ws : List Nat) : Nat := (ws.map OnesCount64).sum

/-- The value of a comparison of two vectors of equal length: popcount of the
word-wise AND over popcount of the word-wise OR. -/
def simValue (b a : foldedBloomFilter) : F64 :=
  F64.divNat
    (popcount (List.zipWith (fun x y => x &&& y) b.parts a.parts))
    (popcount (List.zipWith (fun x y => x ||| y) b.parts a.parts))

/-- The `s`-th stripe of `src`: the block of `wc` consecutive words that starts
at index `s * wc` (shorter, or empty, at the end of `src`). -/
def stripe (src : List Nat) (wc s : Nat) : List Nat := (src.drop (s * wc)).take wc

/-- A word vector has a set bit: some word has one of its 64 bit positions set. -/
def HasSetBit (ws : List Nat) : Prop := ∃ w ∈ ws, ∃ i, i < 64 ∧ w.testBit i = true

/-- The threshold test of the exact baseline, on the two counters of an entry:
the union count is positive and intersection over union is at least 0.95. -/
def exactHit (query : GoMap Unit) (other : List String) : Bool :=
  decide (0 < (countLoop query other).2) &&
    decide ((19 : ℚ) / 20 ≤
      ((countLoop query other).1 : ℚ) / ((countLoop query other).2 : ℚ))

/-- The ceiling of `a / b` for natural numbers. -/
def ceilDiv (a b : Nat) : Nat := (a + b - 1) / b

/-- The smallest power of two that is at least `n`. -/
def nextPowerOfTwo (n : Nat) : Nat := 2 ^ Nat.clog 2 n

/-- A record belongs to bucket `i`: every record to the overall bucket 0, a
record of size group `i` to bucket `i`. -/
def inBucket {α : Type} (i : Nat) (r : Rec α) : Bool :=
  decide (i = 0) || decide (sizeGroup r.data.length = i)

/-- The value of bucket `i` after the records `rs`, from the start value `a`: the
values `f r` of the records of the bucket, added one by one in arrival order. -/
def bucketFold {α : Type} (ar : FloatArith α) (f : Rec α → α) (rs : List (Rec α)) (i : Nat)
    (a : α) : α :=
  (rs.filter (inBucket i)).foldl (fun acc r => ar.add acc (f r)) a

/-- The exact integer sum of the results of the records of bucket `i`. -/
def bucketCount {α : Type} (rs : List (Rec α)) (i : Nat) : Int :=
  ((rs.filter (inBucket i)).map (fun r => r.result)).sum

/-- An invariant of the runs of `parallelCollect`: the slices of the aggregator
are the aggregate of the records delivered so far, and a returned result is the
aggregator's slices. -/
def Pipe.Inv (p : Pipe) : Prop :=
  (∃ rs, aggregate Float64.arith (Totals.init Float64.arith) rs = some p.totals) ∧
  ∀ t, p.outcome = Outcome.returned t → t = p.totals

/-- The true Jaccard index of two item lists seen as sets. -/
def jaccard (a b : List String) : ℚ :=
  ((a.toFinset ∩ b.toFinset).card : ℚ) / ((a.toFinset ∪ b.toFinset).card : ℚ)

end Bloomfold

namespace Bloomfold

/-! ## Population count -/

theorem countP_or_le {α : Type} (p q : α → Bool) (l : List α) :
    l.countP (fun x => p x || q x) ≤ l.countP p + l.countP q := by
  induction l with
  | nil => simp
  | cons x xs ih =>
    simp only [List.countP_cons]
    cases hp : p x <;> cases hq : q x <;> simp <;> omega

theorem OnesCount64_mono {x y : Nat}
    (h : ∀ i, i < 64 → x.testBit i = true → y.testBit i = true) :
    OnesCount64 x ≤ OnesCount64 y := by
  unfold OnesCount64
  apply List.countP_mono_left
  intro i hi hx
  exact h i (List.mem_range.mp hi) hx

theorem OnesCount64_or_le (x y : Nat) :
    OnesCount64 (x ||| y) ≤ OnesCount64 x + OnesCount64 y := by
  unfold OnesCount64
  have := countP_or_le (fun i => x.testBit i) (fun i => y.testBit i) (List.range 64)
  simpa [Nat.testBit_or] using this

theorem OnesCount64_and_le_or (x y : Nat) :
    OnesCount64 (x &&& y) ≤ OnesCount64 (x ||| y) := by
  apply OnesCount64_mono
  intro i _ h
  simp only [Nat.testBit_and, Bool.and_eq_true] at h
  simp [Nat.testBit_or, h.1]

theorem OnesCount64_le_or_right (x y : Nat) : OnesCount64 y ≤ OnesCount64 (x ||| y) := by
  apply OnesCount64_mono
  intro i _ h
  simp [Nat.testBit_or, h]

theorem OnesCount64_zero : OnesCount64 0 = 0 := by
  unfold OnesCount64
  simp

theorem OnesCount64_pos {x : Nat} (h : ∃ i, i < 64 ∧ x.testBit i = true) :
    0 < OnesCount64 x := by
  obtain ⟨i, hi, hx⟩ := h
  unfold OnesCount64
  exact List.countP_pos_iff.mpr ⟨i, List.mem_range.mpr hi, hx⟩

theorem popcount_nil : popcount [] = 0 := rfl

theorem popcount_cons (w : Nat) (ws : List Nat) :
    popcount (w :: ws) = OnesCount64 w + popcount ws := by
  simp [popcount]

theorem popcount_append (xs ys : List Nat) :
    popcount (xs ++ ys) = popcount xs + popcount ys := by
  simp [popcount]

theorem popcount_pos_of_hasSetBit {ws : List Nat} (h : HasSetBit ws) : 0 < popcount ws := by
  obtain ⟨w, hw, hbit⟩ := h
  induction ws with
  | nil => simp at hw
  | cons v vs ih =>
    rw [popcount_cons]
    rcases List.mem_cons.mp hw with rfl | hmem
    · have := OnesCount64_pos hbit
      omega
    · have := ih hmem
      omega

/-! ## The folding loop -/

theorem foldLoop_getElem? (mod : Nat) (src : List Nat) :
    ∀ (i0 : Nat) (parts : List Nat) (i : Nat),
      (foldLoop mod i0 src parts)[i]? = (parts[i]?).map (orFrom mod i (src.enumFrom i0)) := by
  induction src with
  | nil =>
    intro i0 parts i
    cases h : parts[i]? <;> simp [foldLoop, orFrom, h]
  | cons p rest ih =>
    intro i0 parts i
    rw [foldLoop, ih, List.getElem?_modify]
    cases h : parts[i]? with
    | none => simp
    | some w =>
      by_cases hk : i0 % mod = i
      · simp [orFrom, List.enumFrom, hk]
      · simp [orFrom, List.enumFrom, hk]

theorem foldLoop_length (mod : Nat) (src : List Nat) :
    ∀ (i0 : Nat) (parts : List Nat), (foldLoop mod i0 src parts).length = parts.length := by
  induction src with
  | nil => intro i0 parts; rfl
  | cons p rest ih => intro i0 parts; rw [foldLoop, ih, List.length_modify]

theorem fold_parts_eq (orig : BloomFilter) (newsize : Nat) :
    (FoldFilterWithSize orig newsize).parts =
      (List.range (1 + newsize / 64)).map (orAtResidue orig.parts (1 + newsize / 64)) := by
  apply List.ext_getElem?
  intro i
  simp only [FoldFilterWithSize, foldLoop_getElem?, List.getElem?_map]
  by_cases hi : i < 1 + newsize / 64
  · rw [List.getElem?_replicate_of_lt hi, List.getElem?_range hi]
    simp [orFrom, orAtResidue, List.enum]
  · rw [List.getElem?_eq_none (by simpa using hi), List.getElem?_eq_none (by simpa using hi)]
    rfl

theorem fold_length (orig : BloomFilter) (newsize : Nat) :
    (FoldFilterWithSize orig newsize).parts.length = 1 + newsize / 64 := by
  simp [FoldFilterWithSize, foldLoop_length]

/-! ## The similarity loop -/

theorem simLoop_ok (aparts : List Nat) (xs : List Nat) :
    ∀ (i : Nat) (acc : Nat × Nat), i + xs.length ≤ aparts.length →
      simLoop aparts i xs acc =
        Except.ok
          (acc.1 + popcount (List.zipWith (fun x y => x &&& y) xs (aparts.drop i)),
           acc.2 + popcount (List.zipWith (fun x y => x ||| y) xs (aparts.drop i))) := by
  induction xs with
  | nil => intro i acc _; simp [simLoop, popcount]
  | cons x rest ih =>
    intro i acc hlen
    simp only [List.length_cons] at hlen
    have hi : i < aparts.length := by omega
    rw [simLoop, List.getElem?_eq_getElem hi]
    simp only
    rw [ih (i + 1) _ (by omega), List.drop_eq_getElem_cons hi]
    simp only [List.zipWith_cons_cons, popcount_cons]
    congr 1
    apply Prod.ext <;> simp only [Nat.add_assoc]

theorem similarity_eq (b a : foldedBloomFilter) (h : a.parts.length = b.parts.length) :
    b.Similarity a =
      Except.ok (F64.divNat
        (popcount (List.zipWith (fun x y => x &&& y) b.parts a.parts))
        (popcount (List.zipWith (fun x y => x ||| y) b.parts a.parts))) := by
  unfold foldedBloomFilter.Similarity
  rw [if_neg (by simpa using h), simLoop_ok a.parts b.parts 0 (0, 0) (by omega)]
  simp

theorem similarity_mismatch (b a : foldedBloomFilter) (h : a.parts.length ≠ b.parts.length) :
    b.Similarity a = Except.error "cannot compare" := by
  unfold foldedBloomFilter.Similarity
  rw [if_pos h]

theorem popcount_and_le_or : ∀ (xs ys : List Nat),
    popcount (List.zipWith (fun x y => x &&& y) xs ys) ≤
      popcount (List.zipWith (fun x y => x ||| y) xs ys)
  | [], _ => by simp [popcount]
  | _ :: _, [] => by simp [popcount]
  | x :: xs, y :: ys => by
    simp only [List.zipWith_cons_cons, popcount_cons]
    have h1 := OnesCount64_and_le_or x y
    have h2 := popcount_and_le_or xs ys
    omega

theorem popcount_le_or_right : ∀ (xs ys : List Nat), ys.length ≤ xs.length →
    popcount ys ≤ popcount (List.zipWith (fun x y => x ||| y) xs ys)
  | _, [], _ => by simp [popcount]
  | [], _ :: _, h => by simp at h
  | x :: xs, y :: ys, h => by
    simp only [List.zipWith_cons_cons, popcount_cons]
    have h1 := OnesCount64_le_or_right x y
    have h2 := popcount_le_or_right xs ys (by simpa using h)
    omega

theorem zipWith_and_comm : ∀ (xs ys : List Nat),
    List.zipWith (fun x y => x &&& y) xs ys = List.zipWith (fun x y => x &&& y) ys xs
  | [], ys => by cases ys <;> simp
  | _ :: _, [] => by simp
  | x :: xs, y :: ys => by
    simp only [List.zipWith_cons_cons, zipWith_and_comm xs ys, Nat.land_comm x y]

theorem zipWith_or_comm : ∀ (xs ys : List Nat),
    List.zipWith (fun x y => x ||| y) xs ys = List.zipWith (fun x y => x ||| y) ys xs
  | [], ys => by cases ys <;> simp
  | _ :: _, [] => by simp
  | x :: xs, y :: ys => by
    simp only [List.zipWith_cons_cons, zipWith_or_comm xs ys, Nat.lor_comm x y]

theorem zipWith_and_self : ∀ (xs : List Nat), List.zipWith (fun x y => x &&& y) xs xs = xs
  | [] => rfl
  | x :: xs => by simp [zipWith_and_self xs]

theorem zipWith_or_self : ∀ (xs : List Nat), List.zipWith (fun x y => x ||| y) xs xs = xs
  | [] => rfl
  | x :: xs => by simp [zipWith_or_self xs]

theorem divNat_fin {n d : Nat} (h : 0 < d) : F64.divNat n d = F64.fin ((n : ℚ) / (d : ℚ)) := by
  unfold F64.divNat
  rw [if_neg (by omega)]

theorem divNat_self {n : Nat} (h : 0 < n) : F64.divNat n n = F64.fin 1 := by
  rw [divNat_fin h]
  congr 1
  have : (n : ℚ) ≠ 0 := by exact_mod_cast (by omega : n ≠ 0)
  exact div_self this

/-! ## Bit-level reading of the folded words -/

theorem testBit_foldl_or (l : List Nat) (b : Nat) : ∀ (w : Nat),
    (l.foldl (fun acc v => acc ||| v) w).testBit b =
      (w.testBit b || l.any (fun v => v.testBit b)) := by
  induction l with
  | nil => intro w; simp
  | cons v vs ih =>
    intro w
    simp only [List.foldl_cons, ih, Nat.testBit_or, List.any_cons, Bool.or_assoc]

theorem testBit_orAtResidue (src : List Nat) (wc i b : Nat) :
    (orAtResidue src wc i).testBit b = true ↔
      ∃ j w, src[j]? = some w ∧ j % wc = i ∧ w.testBit b = true := by
  unfold orAtResidue
  rw [testBit_foldl_or]
  simp only [Nat.zero_testBit, Bool.false_or, List.any_eq_true, List.mem_map, List.mem_filter,
    decide_eq_true_eq, Prod.exists, List.mk_mem_enum_iff_getElem?]
  constructor
  · rintro ⟨w, ⟨j, w', ⟨hget, hmod⟩, rfl⟩, hbit⟩
    exact ⟨j, w', hget, hmod, hbit⟩
  · rintro ⟨j, w, hget, hmod, hbit⟩
    exact ⟨w, ⟨j, w, ⟨hget, hmod⟩, rfl⟩, hbit⟩

/-! ## Claims on `folded.go` -/

/-- C1: for every source sketch and every target size, `FoldFilterWithSize` returns
exactly `1 + newsize / 64` words, and output word `i` is the bitwise OR of the
source words at the indices `j` with `j % wordCount = i` (zero when there is
none); bit by bit, a bit of output word `i` is set exactly when it is set in one
of those source words. -/
theorem C1_fold_words (orig : BloomFilter) (newsize : Nat) :
    (FoldFilterWithSize orig newsize).parts.length = 1 + newsize / 64 ∧
    (FoldFilterWithSize orig newsize).parts =
      (List.range (1 + newsize / 64)).map (orAtResidue orig.parts (1 + newsize / 64)) ∧
    (∀ i b, (orAtResidue orig.parts (1 + newsize / 64) i).testBit b = true ↔
      ∃ j w, orig.parts[j]? = some w ∧ j % (1 + newsize / 64) = i ∧ w.testBit b = true) :=
  ⟨fold_length orig newsize, fold_parts_eq orig newsize,
    fun i b => testBit_orAtResidue orig.parts _ i b⟩

/-- C2: for two folded sketches with the same word count, `b.Similarity(a)` returns
the quotient of the total popcount of the word-wise AND by the total popcount of
the word-wise OR. -/
theorem C2_similarity_value (a b : foldedBloomFilter)
    (h : a.parts.length = b.parts.length) :
    b.Similarity a =
      Except.ok (F64.divNat
        (popcount (List.zipWith (fun x y => x &&& y) b.parts a.parts))
        (popcount (List.zipWith (fun x y => x ||| y) b.parts a.parts))) :=
  similarity_eq b a h

/-- Witness of C2 on the vectors `[3, 5]` and `[1, 4]`: two common bits out of
four, similarity one half. -/
theorem C2_similarity_value_witness :
    (foldedBloomFilter.mk [3, 5]).parts.length = (foldedBloomFilter.mk [1, 4]).parts.length ∧
    (foldedBloomFilter.mk [1, 4]).Similarity (foldedBloomFilter.mk [3, 5]) =
      Except.ok (F64.fin (1 / 2)) :=
  ⟨rfl, (C2_similarity_value ⟨[3, 5]⟩ ⟨[1, 4]⟩ rfl).trans (congrArg Except.ok (by
    have h1 : popcount (List.zipWith (fun x y => x &&& y) [1, 4] [3, 5]) = 2 := by decide
    have h2 : popcount (List.zipWith (fun x y => x ||| y) [1, 4] [3, 5]) = 4 := by decide
    simp only [h1, h2, F64.divNat]
    norm_num))⟩

/-- C3: `Similarity` fails with the size-mismatch panic exactly when the two word
counts differ and returns a value exactly when they are equal; a sketch folded
to 1024 bits (17 words) never compares with one folded to 2048 bits (33 words). -/
theorem C3_similarity_mismatch (a b : foldedBloomFilter) (s1 s2 : BloomFilter) :
    (b.Similarity a = Except.error "cannot compare" ↔ a.parts.length ≠ b.parts.length) ∧
    ((∃ v, b.Similarity a = Except.ok v) ↔ a.parts.length = b.parts.length) ∧
    (FoldFilterWithSize s1 1024).Similarity (FoldFilterWithSize s2 2048) =
      Except.error "cannot compare" ∧
    (FoldFilterWithSize s2 2048).Similarity (FoldFilterWithSize s1 1024) =
      Except.error "cannot compare" := by
  refine ⟨?_, ?_, ?_, ?_⟩
  · constructor
    · intro herr hlen
      rw [similarity_eq b a hlen] at herr
      exact Except.noConfusion herr
    · exact similarity_mismatch b a
  · constructor
    · rintro ⟨v, hv⟩
      by_contra hlen
      rw [similarity_mismatch b a hlen] at hv
      exact Except.noConfusion hv
    · intro hlen
      exact ⟨_, similarity_eq b a hlen⟩
  · apply similarity_mismatch
    rw [fold_length, fold_length]
    decide
  · apply similarity_mismatch
    rw [fold_length, fold_length]
    decide

/-- C7: for two folded sketches of equal word count with a set bit in one of them,
the two orders of comparison return the same, well-defined number. -/
theorem C7_similarity_symm (a b : foldedBloomFilter)
    (hlen : a.parts.length = b.parts.length)
    (hbit : HasSetBit a.parts ∨ HasSetBit b.parts) :
    ∃ q : ℚ, a.Similarity b = Except.ok (F64.fin q) ∧ b.Similarity a = Except.ok (F64.fin q) := by
  have hpos : 0 < popcount (List.zipWith (fun x y => x ||| y) b.parts a.parts) := by
    rcases hbit with h | h
    · have h1 := popcount_pos_of_hasSetBit h
      have h2 := popcount_le_or_right b.parts a.parts (by omega)
      omega
    · have h1 := popcount_pos_of_hasSetBit h
      have h2 := popcount_le_or_right a.parts b.parts (by omega)
      rw [zipWith_or_comm] at h2
      omega
  refine ⟨(popcount (List.zipWith (fun x y => x &&& y) b.parts a.parts) : ℚ) /
    (popcount (List.zipWith (fun x y => x ||| y) b.parts a.parts) : ℚ), ?_, ?_⟩
  · rw [similarity_eq a b hlen.symm, zipWith_and_comm, zipWith_or_comm, divNat_fin hpos]
  · rw [similarity_eq b a hlen, divNat_fin hpos]

/-- Witness of C7 on the vectors `[3, 5]` and `[1, 4]`. -/
theorem C7_similarity_symm_witness :
    ∃ q : ℚ, (foldedBloomFilter.mk [3, 5]).Similarity (foldedBloomFilter.mk [1, 4]) =
        Except.ok (F64.fin q) ∧
      (foldedBloomFilter.mk [1, 4]).Similarity (foldedBloomFilter.mk [3, 5]) =
        Except.ok (F64.fin q) :=
  C7_similarity_symm ⟨[3, 5]⟩ ⟨[1, 4]⟩ rfl (Or.inl ⟨3, by simp, 0, by decide, by decide⟩)

/-- C8: a folded sketch with at least one set bit has similarity exactly 1 with
itself. -/
theorem C8_similarity_self (a : foldedBloomFilter) (hbit : HasSetBit a.parts) :
    a.Similarity a = Except.ok (F64.fin 1) := by
  rw [similarity_eq a a rfl, zipWith_and_self, zipWith_or_self,
    divNat_self (popcount_pos_of_hasSetBit hbit)]

/-- Witness of C8 on the vector `[0, 6]`. -/
theorem C8_similarity_self_witness :
    HasSetBit (foldedBloomFilter.mk [0, 6]).parts ∧
    (foldedBloomFilter.mk [0, 6]).Similarity (foldedBloomFilter.mk [0, 6]) =
      Except.ok (F64.fin 1) :=
  ⟨⟨6, by simp, 1, by decide, by decide⟩,
    C8_similarity_self ⟨[0, 6]⟩ ⟨6, by simp, 1, by decide, by decide⟩⟩

/-! ## Popcount of a fold -/

theorem popcount_modify_or_le (p : Nat) : ∀ (parts : List Nat) (k : Nat),
    popcount (parts.modify (fun w => w ||| p) k) ≤ popcount parts + OnesCount64 p
  | [], k => by cases k <;> simp [List.modify, popcount]
  | w :: ws, 0 => by
    simp only [List.modify_zero_cons, popcount_cons]
    have := OnesCount64_or_le w p
    omega
  | w :: ws, k + 1 => by
    simp only [List.modify_succ_cons, popcount_cons]
    have := popcount_modify_or_le p ws k
    omega

theorem popcount_foldLoop_le (mod : Nat) (src : List Nat) : ∀ (i0 : Nat) (parts : List Nat),
    popcount (foldLoop mod i0 src parts) ≤ popcount parts + popcount src := by
  induction src with
  | nil => intro i0 parts; simp [foldLoop, popcount]
  | cons p rest ih =>
    intro i0 parts
    rw [foldLoop, popcount_cons]
    have h1 := ih (i0 + 1) (parts.modify (fun w => w ||| p) (i0 % mod))
    have h2 := popcount_modify_or_le p parts (i0 % mod)
    omega

theorem popcount_replicate_zero (n : Nat) : popcount (List.replicate n 0) = 0 := by
  induction n with
  | zero => rfl
  | succ n ih => rw [List.replicate_succ, popcount_cons, ih, OnesCount64_zero]

theorem fold_popcount_le (orig : BloomFilter) (newsize : Nat) :
    popcount (FoldFilterWithSize orig newsize).parts ≤ popcount orig.parts := by
  have h := popcount_foldLoop_le (1 + newsize / 64) orig.parts 0
    (List.replicate (1 + newsize / 64) 0)
  rw [popcount_replicate_zero] at h
  simpa [FoldFilterWithSize] using h

theorem stripe_zero (src : List Nat) (wc : Nat) : stripe src wc 0 = src.take wc := by
  simp [stripe]

theorem stripe_succ (src : List Nat) (wc s : Nat) :
    stripe src wc (s + 1) = stripe (src.drop wc) wc s := by
  simp only [stripe, List.drop_drop]
  congr 2
  rw [Nat.add_mul]
  omega

theorem popcount_stripes (wc : Nat) : ∀ (n : Nat) (src : List Nat), src.length ≤ n * wc →
    ((List.range n).map (fun s => popcount (stripe src wc s))).sum = popcount src := by
  intro n
  induction n with
  | zero =>
    intro src h
    have : src = [] := List.length_eq_zero.mp (by omega)
    subst this
    rfl
  | succ n ih =>
    intro src h
    rw [List.range_succ_eq_map, List.map_cons, List.sum_cons, List.map_map]
    have hrest : (src.drop wc).length ≤ n * wc := by
      rw [List.length_drop]
      rw [Nat.add_mul] at h
      omega
    have hih := ih (src.drop wc) hrest
    have hfun : ((fun s => popcount (stripe src wc s)) ∘ Nat.succ) =
        (fun s => popcount (stripe (src.drop wc) wc s)) := by
      funext s
      simp [stripe_succ]
    rw [hfun, hih, stripe_zero, ← popcount_append, List.take_append_drop]

theorem popcount_le_of_pointwise : ∀ (xs ys : List Nat), xs.length ≤ ys.length →
    (∀ (i x y : Nat), xs[i]? = some x → ys[i]? = some y → OnesCount64 x ≤ OnesCount64 y) →
    popcount xs ≤ popcount ys
  | [], _, _, _ => by simp [popcount]
  | _ :: _, [], h, _ => by simp at h
  | x :: xs, y :: ys, h, hp => by
    rw [popcount_cons, popcount_cons]
    have h0 := hp 0 x y (by simp) (by simp)
    have h1 := popcount_le_of_pointwise xs ys (by simpa using h)
      (fun i a b ha hb => hp (i + 1) a b (by simpa using ha) (by simpa using hb))
    omega

theorem stripe_popcount_le_fold (orig : BloomFilter) (newsize s : Nat) :
    popcount (stripe orig.parts (1 + newsize / 64) s) ≤
      popcount (FoldFilterWithSize orig newsize).parts := by
  apply popcount_le_of_pointwise
  · rw [fold_length]
    simp only [stripe]
    exact List.length_take_le _ _
  · intro i x y hx hy
    rw [fold_parts_eq] at hy
    simp only [stripe, List.getElem?_take, List.getElem?_drop] at hx
    split at hx
    swap
    · exact absurd hx (by simp)
    rename_i hi
    have hy' : y = orAtResidue orig.parts (1 + newsize / 64) i := by
      rw [List.getElem?_map, List.getElem?_range hi] at hy
      simpa using hy.symm
    subst hy'
    apply OnesCount64_mono
    intro b _ hb
    rw [testBit_orAtResidue]
    refine ⟨s * (1 + newsize / 64) + i, x, hx, ?_, hb⟩
    rw [Nat.mul_add_mod_of_lt hi]

theorem fold_all_zero (orig : BloomFilter) (newsize : Nat)
    (hz : ∀ w ∈ orig.parts, w = 0) :
    ∀ w ∈ (FoldFilterWithSize orig newsize).parts, w = 0 := by
  intro w hw
  rw [fold_parts_eq] at hw
  obtain ⟨i, _, rfl⟩ := List.mem_map.mp hw
  apply Nat.eq_of_testBit_eq
  intro b
  rw [Nat.zero_testBit]
  by_contra hne
  have htrue : (orAtResidue orig.parts (1 + newsize / 64) i).testBit b = true := by
    simpa using hne
  obtain ⟨j, v, hget, _, hbit⟩ := (testBit_orAtResidue _ _ _ _).mp htrue
  have hv : v = 0 := hz v (List.getElem?_mem hget)
  subst hv
  simp at hbit

theorem stripes_cover (len wc : Nat) (hwc : 0 < wc) : len ≤ ((len + wc - 1) / wc) * wc := by
  have h1 := Nat.div_add_mod (len + wc - 1) wc
  have h2 := Nat.mod_lt (len + wc - 1) hwc
  rw [Nat.mul_comm] at h1
  omega

/-- C9: with `wordCount = 1 + newsize / 64` and the stripes being the consecutive
blocks of `wordCount` source words, the popcount of the fold is at most the sum of
the popcounts of the stripes, which is the popcount of the whole source, and at
least the popcount of every single stripe; an all-zero source folds to an
all-zero vector. -/
theorem C9_fold_popcount (orig : BloomFilter) (newsize : Nat) :
    popcount (FoldFilterWithSize orig newsize).parts ≤
      ((List.range ((orig.parts.length + (1 + newsize / 64) - 1) / (1 + newsize / 64))).map
        (fun s => popcount (stripe orig.parts (1 + newsize / 64) s))).sum ∧
    ((List.range ((orig.parts.length + (1 + newsize / 64) - 1) / (1 + newsize / 64))).map
        (fun s => popcount (stripe orig.parts (1 + newsize / 64) s))).sum =
      popcount orig.parts ∧
    (∀ s, popcount (stripe orig.parts (1 + newsize / 64) s) ≤
      popcount (FoldFilterWithSize orig newsize).parts) ∧
    ((∀ w ∈ orig.parts, w = 0) → ∀ w ∈ (FoldFilterWithSize orig newsize).parts, w = 0) := by
  have hsum := popcount_stripes (1 + newsize / 64) _ orig.parts
    (stripes_cover orig.parts.length (1 + newsize / 64) (by omega))
  refine ⟨?_, hsum, stripe_popcount_le_fold orig newsize, fold_all_zero orig newsize⟩
  rw [hsum]
  exact fold_popcount_le orig newsize

/-! ## Go maps -/

theorem find_store_self {ν : Type} (k : String) (v : ν) : ∀ (m : GoMap ν),
    GoMap.find (GoMap.store m k v) k = some v
  | [] => by simp [GoMap.store, GoMap.find]
  | (k', v') :: rest => by
    by_cases h : k' = k
    · simp [GoMap.store, GoMap.find, h]
    · simp [GoMap.store, GoMap.find, h, find_store_self k v rest]

theorem find_store_ne {ν : Type} (k k1 : String) (v : ν) (hne : k1 ≠ k) : ∀ (m : GoMap ν),
    GoMap.find (GoMap.store m k v) k1 = GoMap.find m k1
  | [] => by simp [GoMap.store, GoMap.find, Ne.symm hne]
  | (k', v') :: rest => by
    by_cases h : k' = k
    · subst h
      simp [GoMap.store, GoMap.find, Ne.symm hne]
    · by_cases h1 : k' = k1
      · subst h1
        simp [GoMap.store, GoMap.find, h]
      · simp [GoMap.store, GoMap.find, h, h1, find_store_ne k k1 v hne rest]

theorem index_store_self {ν : Type} (m : GoMap ν) (k : String) (v zero : ν) :
    GoMap.index (GoMap.store m k v) k zero = v := by
  simp [GoMap.index, find_store_self]

theorem store_of_not_mem {ν : Type} (k : String) (v : ν) : ∀ (m : GoMap ν),
    k ∉ GoMap.keys m → GoMap.store m k v = m ++ [(k, v)]
  | [], _ => rfl
  | (k', v') :: rest, h => by
    have hk : k' ≠ k := by
      intro e
      apply h
      simp [GoMap.keys, e]
    have hrest : k ∉ GoMap.keys rest := by
      intro hmem
      apply h
      simp only [GoMap.keys, List.map_cons, List.mem_cons]
      exact Or.inr hmem
    simp [GoMap.store, hk, store_of_not_mem k v rest hrest]

theorem keys_store {ν : Type} (k : String) (v : ν) : ∀ (m : GoMap ν),
    GoMap.keys (GoMap.store m k v) =
      if k ∈ GoMap.keys m then GoMap.keys m else GoMap.keys m ++ [k]
  | [] => by simp [GoMap.store, GoMap.keys]
  | (k', v') :: rest => by
    by_cases h : k' = k
    · subst h
      simp [GoMap.store, GoMap.keys]
    · have ih := keys_store k v rest
      simp only [GoMap.keys] at ih
      have hne : ¬ k = k' := fun e => h e.symm
      by_cases hmem : k ∈ List.map Prod.fst rest
      · simp [GoMap.store, GoMap.keys, h, hne, hmem, ih]
      · simp [GoMap.store, GoMap.keys, h, hne, hmem, ih]

theorem find_eq_none_of_not_mem {ν : Type} (k : String) : ∀ (m : GoMap ν),
    k ∉ GoMap.keys m → GoMap.find m k = none
  | [], _ => rfl
  | (k', v') :: rest, h => by
    have hk : k' ≠ k := by
      intro e
      apply h
      simp [GoMap.keys, e]
    have hrest : k ∉ GoMap.keys rest := by
      intro hmem
      apply h
      simp only [GoMap.keys, List.map_cons, List.mem_cons]
      exact Or.inr hmem
    simp [GoMap.find, hk, find_eq_none_of_not_mem k rest hrest]

theorem find_of_mem {ν : Type} (k : String) (v : ν) : ∀ (m : GoMap ν),
    (GoMap.keys m).Nodup → (k, v) ∈ m → GoMap.find m k = some v
  | [], _, h => by simp at h
  | (k', v') :: rest, hnd, h => by
    simp only [GoMap.keys, List.map_cons, List.nodup_cons] at hnd
    rcases List.mem_cons.mp h with e | hmem
    · cases e
      simp [GoMap.find]
    · have hk : k' ≠ k := by
        intro e
        subst e
        exact hnd.1 (List.mem_map.mpr ⟨(k', v), hmem, rfl⟩)
      simp [GoMap.find, hk, find_of_mem k v rest hnd.2 hmem]

theorem find_isSome_iff {ν : Type} (k : String) : ∀ (m : GoMap ν),
    (GoMap.find m k).isSome = true ↔ k ∈ GoMap.keys m
  | [] => by simp [GoMap.find, GoMap.keys]
  | (k', v') :: rest => by
    have ih := find_isSome_iff k rest
    simp only [GoMap.keys] at ih
    by_cases h : k' = k
    · simp [GoMap.find, GoMap.keys, h]
    · have hne : ¬ k = k' := fun e => h e.symm
      simp [GoMap.find, GoMap.keys, h, hne, ih]

theorem find_map_val {ν μ : Type} (f : ν → μ) (k : String) : ∀ (m : GoMap ν),
    GoMap.find (m.map (fun e => (e.1, f e.2))) k = (GoMap.find m k).map f
  | [] => rfl
  | (k', v') :: rest => by
    by_cases h : k' = k
    · simp [GoMap.find, h]
    · simp [GoMap.find, h, find_map_val f k rest]

theorem keys_map_val {ν μ : Type} (f : ν → μ) (m : GoMap ν) :
    GoMap.keys (m.map (fun e => (e.1, f e.2))) = GoMap.keys m := by
  simp [GoMap.keys, List.map_map, Function.comp_def]

/-! ## The exact baseline -/

theorem foldl_store_keys (data : List String) : ∀ (q : GoMap Unit), (GoMap.keys q).Nodup →
    (GoMap.keys (data.foldl (fun q x => GoMap.store q x ()) q)).Nodup ∧
    ∀ x, x ∈ GoMap.keys (data.foldl (fun q x => GoMap.store q x ()) q) ↔
      x ∈ GoMap.keys q ∨ x ∈ data := by
  induction data with
  | nil => intro q hq; simp [hq]
  | cons y ys ih =>
    intro q hq
    have hnd : (GoMap.keys (GoMap.store q y ())).Nodup := by
      rw [keys_store]
      split
      · exact hq
      · rename_i hy
        exact List.nodup_append.mpr ⟨hq, List.nodup_singleton y, by
          intro a ha hb
          rw [List.mem_singleton] at hb
          exact hy (hb ▸ ha)⟩
    have hmem : ∀ x, x ∈ GoMap.keys (GoMap.store q y ()) ↔ x ∈ GoMap.keys q ∨ x = y := by
      intro x
      rw [keys_store]
      split
      · rename_i hy
        constructor
        · exact Or.inl
        · rintro (h | rfl)
          · exact h
          · exact hy
      · simp
    obtain ⟨h1, h2⟩ := ih (GoMap.store q y ()) hnd
    refine ⟨h1, fun x => ?_⟩
    rw [List.foldl_cons, h2 x, hmem x, List.mem_cons, or_assoc]

theorem querySet_nodup (data : List String) : (GoMap.keys (querySet data)).Nodup :=
  (foldl_store_keys data [] List.nodup_nil).1

theorem mem_querySet (data : List String) (x : String) :
    x ∈ GoMap.keys (querySet data) ↔ x ∈ data := by
  have h := (foldl_store_keys data [] List.nodup_nil).2 x
  simpa [GoMap.keys] using h

theorem querySet_length (data : List String) :
    (querySet data).length = data.toFinset.card := by
  have h1 : (GoMap.keys (querySet data)).length = (querySet data).length := by
    simp [GoMap.keys]
  rw [← h1, ← List.toFinset_card_of_nodup (querySet_nodup data)]
  congr 1
  ext x
  simp [mem_querySet]

theorem querySet_find (data : List String) (x : String) :
    (GoMap.find (querySet data) x).isSome = decide (x ∈ data) := by
  rw [Bool.eq_iff_iff, find_isSome_iff, mem_querySet]
  simp

theorem countLoop_foldl (q : GoMap Unit) (other : List String) : ∀ (nd : Nat × Nat),
    other.foldl
      (fun nd x => if (GoMap.find q x).isSome then (nd.1 + 1, nd.2) else (nd.1, nd.2 + 1)) nd =
    (nd.1 + other.countP (fun x => (GoMap.find q x).isSome),
     nd.2 + other.countP (fun x => !(GoMap.find q x).isSome)) := by
  induction other with
  | nil => intro nd; simp
  | cons x xs ih =>
    intro nd
    rw [List.foldl_cons, ih]
    cases h : (GoMap.find q x).isSome
    · simp only [List.countP_cons, h, Bool.not_false, Bool.false_eq_true, if_false, if_true]
      apply Prod.ext <;> simp only <;> omega
    · simp only [List.countP_cons, h, Bool.not_true, Bool.false_eq_true, if_false, if_true]
      apply Prod.ext <;> simp only <;> omega

theorem countLoop_querySet (a b : List String) :
    countLoop (querySet a) b =
      (b.countP (fun x => decide (x ∈ a)),
       a.toFinset.card + b.countP (fun x => !decide (x ∈ a))) := by
  unfold countLoop
  rw [countLoop_foldl, querySet_length]
  simp only [querySet_find, Nat.zero_add]

theorem countP_mem_eq_inter (a b : List String) (hb : b.Nodup) :
    b.countP (fun x => decide (x ∈ a)) = (a.toFinset ∩ b.toFinset).card := by
  rw [List.countP_eq_length_filter, ← List.toFinset_card_of_nodup (hb.filter _)]
  congr 1
  ext x
  simp only [List.mem_toFinset, List.mem_filter, decide_eq_true_eq, Finset.mem_inter]
  tauto

theorem countP_not_mem_eq_union (a b : List String) (hb : b.Nodup) :
    a.toFinset.card + b.countP (fun x => !decide (x ∈ a)) = (a.toFinset ∪ b.toFinset).card := by
  rw [List.countP_eq_length_filter, ← List.toFinset_card_of_nodup (hb.filter _)]
  have hdisj : Disjoint a.toFinset (b.filter (fun x => !decide (x ∈ a))).toFinset := by
    rw [Finset.disjoint_left]
    intro x hx hx2
    simp only [List.mem_toFinset, List.mem_filter, Bool.not_eq_true', decide_eq_false_iff_not]
      at hx hx2
    exact hx2.2 hx
  rw [← Finset.card_union_of_disjoint hdisj]
  congr 1
  ext x
  simp only [List.mem_toFinset, List.mem_filter, Bool.not_eq_true', decide_eq_false_iff_not,
    Finset.mem_union]
  tauto

theorem union_card_pos (a b : List String) (hne : a ≠ [] ∨ b ≠ []) :
    0 < (a.toFinset ∪ b.toFinset).card := by
  rw [Finset.card_pos]
  rcases hne with h | h
  · obtain ⟨x, hx⟩ := List.exists_mem_of_ne_nil a h
    exact ⟨x, Finset.mem_union_left _ (List.mem_toFinset.mpr hx)⟩
  · obtain ⟨x, hx⟩ := List.exists_mem_of_ne_nil b h
    exact ⟨x, Finset.mem_union_right _ (List.mem_toFinset.mpr hx)⟩

theorem exactScore_eq_jaccard (a b : List String) (hb : b.Nodup) (hne : a ≠ [] ∨ b ≠ []) :
    exactScore (querySet a) b = F64.fin (jaccard a b) := by
  unfold exactScore
  rw [countLoop_querySet, countP_mem_eq_inter a b hb, countP_not_mem_eq_union a b hb,
    divNat_fin (union_card_pos a b hne)]
  rfl

theorem ge_threshold_fin (x : ℚ) :
    F64.ge (F64.fin x) CompThreshold = decide ((19 : ℚ) / 20 ≤ x) := rfl

theorem hit_eq (n d : Nat) :
    (decide (0 < d) && F64.ge (F64.divNat n d) CompThreshold) =
      (decide (0 < d) && decide ((19 : ℚ) / 20 ≤ (n : ℚ) / (d : ℚ))) := by
  by_cases hd : 0 < d
  · rw [divNat_fin hd, ge_threshold_fin]
  · simp [hd]

theorem exactStep_eq (q : GoMap Unit) (st : MatchState) (e : String × List String)
    (h : e.1 ∉ GoMap.keys st.res) :
    exactStep q st e =
      { res := st.res ++ [(e.1, exactScore q e.2)]
        keys := st.keys ++ [e.1]
        comps := st.comps + (if exactHit q e.2 then 1 else 0) } := by
  unfold exactStep
  simp only [index_store_self, hit_eq]
  rw [store_of_not_mem _ _ _ h, MatchState.mk.injEq]
  refine ⟨rfl, rfl, ?_⟩
  unfold exactHit
  split <;> simp_all

theorem exactLoop_eq (q : GoMap Unit) : ∀ (l : List (String × List String)) (st : MatchState),
    (GoMap.keys st.res ++ GoMap.keys l).Nodup →
    l.foldl (exactStep q) st =
      { res := st.res ++ l.map (fun e => (e.1, exactScore q e.2))
        keys := st.keys ++ GoMap.keys l
        comps := st.comps + l.countP (fun e => exactHit q e.2) } := by
  intro l
  induction l with
  | nil => intro st _; simp [GoMap.keys]
  | cons e rest ih =>
    intro st hnd
    have hnot : e.1 ∉ GoMap.keys st.res := by
      intro hmem
      have := (List.nodup_append.mp hnd).2.2
      exact this hmem (by simp [GoMap.keys])
    rw [List.foldl_cons, exactStep_eq q st e hnot, ih]
    · simp only [List.append_assoc, List.singleton_append, List.map_cons, GoMap.keys,
        List.countP_cons, Nat.add_assoc]
      rw [MatchState.mk.injEq]
      refine ⟨rfl, rfl, ?_⟩
      omega
    · simpa [GoMap.keys] using hnd

theorem exactLoop_init (q : GoMap Unit) (l : List (String × List String))
    (hnd : (GoMap.keys l).Nodup) :
    l.foldl (exactStep q) MatchState.init =
      { res := l.map (fun e => (e.1, exactScore q e.2))
        keys := GoMap.keys l
        comps := l.countP (fun e => exactHit q e.2) } := by
  rw [exactLoop_eq q l MatchState.init (by simpa [MatchState.init, GoMap.keys] using hnd)]
  simp [MatchState.init]

theorem range_keys_perm (rt : Runtime) (hrt : rt.Lawful) {ν : Type} (m : GoMap ν) :
    (GoMap.keys (rt.range m)).Perm (GoMap.keys m) :=
  (hrt.range_perm m).map Prod.fst

theorem range_keys_nodup (rt : Runtime) (hrt : rt.Lawful) {ν : Type} (m : GoMap ν)
    (hnd : (GoMap.keys m).Nodup) : (GoMap.keys (rt.range m)).Nodup :=
  (range_keys_perm rt hrt m).nodup_iff.mpr hnd

theorem exact_res_index (q : GoMap Unit) (l : List (String × List String))
    (hnd : (GoMap.keys l).Nodup) (k : String) (other : List String) (hmem : (k, other) ∈ l) :
    GoMap.index (l.foldl (exactStep q) MatchState.init).res k (F64.fin 0) =
      exactScore q other := by
  rw [exactLoop_init q l hnd]
  simp only [GoMap.index]
  rw [find_map_val, find_of_mem k other l hnd hmem]
  rfl

/-- C4: for a query list `A` (duplicates allowed) and a dataset entry `B` without
repeated items, not both empty, the score that the exact `BestMatches` stores for
that entry is the true Jaccard index of the two sets; for `A = [a, b, c]` and
`B = [b, c, d]` the counters end at intersection 2 and union 4, score one half. -/
theorem C4_exact_jaccard (rt : Runtime) (hrt : rt.Lawful) (dataset : GoMap (List String))
    (hkeys : (GoMap.keys dataset).Nodup) (A : List String) (k : String) (B : List String)
    (hmem : (k, B) ∈ dataset) (hB : B.Nodup) (hne : A ≠ [] ∨ B ≠ []) :
    GoMap.index ((rt.range dataset).foldl (exactStep (querySet A)) MatchState.init).res k
        (F64.fin 0) = F64.fin (jaccard A B) ∧
    countLoop (querySet ["a", "b", "c"]) ["b", "c", "d"] = (2, 4) ∧
    exactScore (querySet ["a", "b", "c"]) ["b", "c", "d"] = F64.fin (1 / 2) := by
  refine ⟨?_, by decide, ?_⟩
  · rw [exact_res_index (querySet A) (rt.range dataset) (range_keys_nodup rt hrt dataset hkeys)
      k B ((hrt.range_perm dataset).mem_iff.mpr hmem)]
    exact exactScore_eq_jaccard A B hB hne
  · have h : countLoop (querySet ["a", "b", "c"]) ["b", "c", "d"] = (2, 4) := by decide
    simp only [exactScore, h, F64.divNat]
    norm_num

/-! ## The runtime contract and the ranking tail -/

theorem simple_lawful : Runtime.simple.Lawful where
  range_perm := fun m => List.Perm.refl m
  sort_perm := fun keys _ => List.mergeSort_perm keys _
  sort_sorted := by
    intro keys less hsw
    have hs := @List.sorted_mergeSort String (fun a b => !less b a)
      (by
        intro a b c hab hbc
        simp only [Bool.not_eq_true'] at hab hbc ⊢
        cases hca : less c a
        · rfl
        · rcases hsw.incomp c a b hca with h | h
          · rw [h] at hbc
            exact absurd hbc (by simp)
          · rw [h] at hab
            exact absurd hab (by simp))
      (by
        intro a b
        simp only [Bool.or_eq_true, Bool.not_eq_true']
        cases hba : less b a
        · exact Or.inl rfl
        · right
          cases hab : less a b
          · rfl
          · have := hsw.trans a b a hab hba
            rw [hsw.irrefl a] at this
            exact absurd this (by simp))
      keys
    exact hs.imp (by intro a b h; simpa using h)

theorem rankTopN_neg (rt : Runtime) (st : MatchState) (topn : Int) (h : topn < 0) :
    rankTopN rt st topn = Except.error "slice bounds out of range" := by
  unfold rankTopN
  simp only
  rw [if_pos (by omega), if_pos h]

theorem rankTopN_nonneg (rt : Runtime) (st : MatchState) (topn : Int) (h : 0 ≤ topn) :
    rankTopN rt st topn =
      Except.ok
        ((rt.sortSlice st.keys
            (fun a b => F64.gt (GoMap.index st.res a (F64.fin 0))
              (GoMap.index st.res b (F64.fin 0)))).take topn.toNat,
         ((rt.sortSlice st.keys
            (fun a b => F64.gt (GoMap.index st.res a (F64.fin 0))
              (GoMap.index st.res b (F64.fin 0)))).take topn.toNat).map
            (fun k => GoMap.index st.res k (F64.fin 0)),
         st.comps) := by
  unfold rankTopN
  simp only
  split
  · rw [if_neg (by omega)]
  · rename_i hlen
    rw [List.take_of_length_le (by omega)]

theorem gt_fin (x y : ℚ) : F64.gt (F64.fin x) (F64.fin y) = decide (y < x) := rfl

theorem ge_fin (x y : ℚ) : F64.ge (F64.fin x) (F64.fin y) = decide (y ≤ x) := rfl

theorem strictWeak_of_fin (idx : String → F64) (hfin : ∀ k, ∃ x : ℚ, idx k = F64.fin x) :
    StrictWeak (fun a b => F64.gt (idx a) (idx b)) where
  irrefl := by
    intro a
    obtain ⟨x, hx⟩ := hfin a
    simp [hx, gt_fin]
  trans := by
    intro a b c
    obtain ⟨x, hx⟩ := hfin a
    obtain ⟨y, hy⟩ := hfin b
    obtain ⟨z, hz⟩ := hfin c
    simp only [hx, hy, hz, gt_fin, decide_eq_true_eq]
    intro h1 h2
    exact lt_trans h2 h1
  incomp := by
    intro a b c
    obtain ⟨x, hx⟩ := hfin a
    obtain ⟨y, hy⟩ := hfin b
    obtain ⟨z, hz⟩ := hfin c
    simp only [hx, hy, hz, gt_fin, decide_eq_true_eq]
    intro h1
    rcases lt_or_le z x with h | h
    · exact Or.inl h
    · exact Or.inr (lt_of_lt_of_le h1 h)

theorem rank_spec (rt : Runtime) (hrt : rt.Lawful) (st : MatchState) (topn : Int)
    (h0 : 0 ≤ topn)
    (hfin : ∀ k, ∃ x : ℚ, GoMap.index st.res k (F64.fin 0) = F64.fin x) :
    ∃ sorted : List String, sorted.Perm st.keys ∧
      sorted.Pairwise (fun a b =>
        F64.ge (GoMap.index st.res a (F64.fin 0)) (GoMap.index st.res b (F64.fin 0)) = true) ∧
      rankTopN rt st topn =
        Except.ok (sorted.take topn.toNat,
          (sorted.take topn.toNat).map (fun k => GoMap.index st.res k (F64.fin 0)),
          st.comps) := by
  refine ⟨_, hrt.sort_perm st.keys _, ?_, rankTopN_nonneg rt st topn h0⟩
  have hs := hrt.sort_sorted st.keys _
    (strictWeak_of_fin (fun k => GoMap.index st.res k (F64.fin 0)) hfin)
  refine hs.imp ?_
  intro a b hab
  obtain ⟨x, hx⟩ := hfin a
  obtain ⟨y, hy⟩ := hfin b
  simp only [hx, hy, gt_fin, ge_fin, decide_eq_false_iff_not, decide_eq_true_eq, not_lt] at hab ⊢
  exact hab

/-! ## Ranking by the exact baseline -/

theorem countLoop_denom_ge (q : GoMap Unit) (other : List String) :
    q.length ≤ (countLoop q other).2 := by
  unfold countLoop
  rw [countLoop_foldl]
  exact Nat.le_add_right _ _

theorem querySet_pos (data : List String) (h : data ≠ []) : 0 < (querySet data).length := by
  rw [querySet_length, Finset.card_pos]
  obtain ⟨x, hx⟩ := List.exists_mem_of_ne_nil data h
  exact ⟨x, List.mem_toFinset.mpr hx⟩

theorem exactScore_fin (q : GoMap Unit) (other : List String) (hq : 0 < q.length) :
    ∃ x : ℚ, exactScore q other = F64.fin x := by
  have := countLoop_denom_ge q other
  exact ⟨_, divNat_fin (by omega)⟩

theorem exact_idx_fin (q : GoMap Unit) (hq : 0 < q.length) (l : List (String × List String))
    (hnd : (GoMap.keys l).Nodup) (k : String) :
    ∃ x : ℚ, GoMap.index (l.foldl (exactStep q) MatchState.init).res k (F64.fin 0) =
      F64.fin x := by
  rw [exactLoop_init q l hnd]
  simp only [GoMap.index]
  rw [find_map_val]
  cases GoMap.find l k with
  | none => exact ⟨0, rfl⟩
  | some other => exact exactScore_fin q other hq

theorem exact_idx_eq (rt : Runtime) (hrt : rt.Lawful) (dataset : GoMap (List String))
    (hkeys : (GoMap.keys dataset).Nodup) (q : GoMap Unit) (k : String)
    (hk : k ∈ GoMap.keys dataset) :
    GoMap.index ((rt.range dataset).foldl (exactStep q) MatchState.init).res k (F64.fin 0) =
      exactScore q (GoMap.index dataset k []) := by
  obtain ⟨⟨k', other⟩, hmem, hk'⟩ := List.mem_map.mp hk
  simp only at hk'
  subst hk'
  rw [exact_res_index q (rt.range dataset) (range_keys_nodup rt hrt dataset hkeys) k' other
    ((hrt.range_perm dataset).mem_iff.mpr hmem)]
  simp only [GoMap.index, find_of_mem k' other dataset hkeys hmem, Option.getD_some]

/-- C5: for a non-empty query and `topn >= 0` the exact `BestMatches` returns
`min(topn, number of keys)` distinct dataset keys with, at the same positions, the
scores computed for them; the scores are in non-increasing order and no dataset
key that is left out has a score above the last returned one. -/
theorem C5_exact_topn (rt : Runtime) (hrt : rt.Lawful) (dataset : GoMap (List String))
    (hkeys : (GoMap.keys dataset).Nodup) (data : List String) (hdata : data ≠ [])
    (topn : Int) (htop : 0 ≤ topn) :
    ∃ keys scores comps, BestMatches rt dataset data topn = Except.ok (keys, scores, comps) ∧
      keys.length = min topn.toNat dataset.length ∧
      keys.Nodup ∧
      (∀ k ∈ keys, k ∈ GoMap.keys dataset) ∧
      scores = keys.map (fun k => exactScore (querySet data) (GoMap.index dataset k [])) ∧
      scores.Pairwise (fun s t => F64.ge s t = true) ∧
      (∀ k ∈ GoMap.keys dataset, k ∉ keys → ∀ s, scores.getLast? = some s →
        F64.ge s (exactScore (querySet data) (GoMap.index dataset k [])) = true) := by
  have hnd := range_keys_nodup rt hrt dataset hkeys
  have hq := querySet_pos data hdata
  obtain ⟨sorted, hperm, hpw, hrank⟩ := rank_spec rt hrt
    ((rt.range dataset).foldl (exactStep (querySet data)) MatchState.init) topn htop
    (exact_idx_fin (querySet data) hq (rt.range dataset) hnd)
  have hkeysEq : ((rt.range dataset).foldl (exactStep (querySet data)) MatchState.init).keys =
      GoMap.keys (rt.range dataset) := by
    rw [exactLoop_init _ _ hnd]
  rw [hkeysEq] at hperm
  have hperm2 : sorted.Perm (GoMap.keys dataset) := hperm.trans (range_keys_perm rt hrt dataset)
  have hidx := exact_idx_eq rt hrt dataset hkeys (querySet data)
  have hsub : ∀ k ∈ sorted.take topn.toNat, k ∈ GoMap.keys dataset :=
    fun k hk => hperm2.mem_iff.mp (List.mem_of_mem_take hk)
  have hsplit : sorted = sorted.take topn.toNat ++ sorted.drop topn.toNat :=
    (List.take_append_drop _ _).symm
  refine ⟨sorted.take topn.toNat, _, _, hrank, ?_, ?_, hsub, ?_, ?_, ?_⟩
  · rw [List.length_take, hperm2.length_eq]
    simp [GoMap.keys]
  · exact (hperm2.nodup_iff.mpr hkeys).sublist (List.take_sublist _ _)
  · exact List.map_congr_left (fun k hk => hidx k (hsub k hk))
  · rw [List.pairwise_map]
    exact hpw.sublist (List.take_sublist _ _)
  · intro k hk hnot s hs
    have hmem := List.mem_of_getLast?_eq_some hs
    obtain ⟨a, ha, rfl⟩ := List.mem_map.mp hmem
    have hkd : k ∈ sorted.drop topn.toNat := by
      have hks : k ∈ sorted := hperm2.mem_iff.mpr hk
      rw [hsplit, List.mem_append] at hks
      exact hks.resolve_left hnot
    rw [hsplit, List.pairwise_append] at hpw
    have := hpw.2.2 a ha k hkd
    rw [hidx k hk] at this
    exact this

theorem sample_keys_nodup : (GoMap.keys sampleDataset).Nodup := by
  decide

/-- Witness of C4 on the sample dataset: the entry `y` against the query
`[a, b, c]`. -/
theorem C4_exact_jaccard_witness :
    GoMap.index ((Runtime.simple.range sampleDataset).foldl
        (exactStep (querySet ["a", "b", "c"])) MatchState.init).res "y" (F64.fin 0) =
      F64.fin (jaccard ["a", "b", "c"] ["b", "c", "d"]) ∧
    countLoop (querySet ["a", "b", "c"]) ["b", "c", "d"] = (2, 4) ∧
    exactScore (querySet ["a", "b", "c"]) ["b", "c", "d"] = F64.fin (1 / 2) :=
  C4_exact_jaccard Runtime.simple simple_lawful sampleDataset sample_keys_nodup
    ["a", "b", "c"] "y" ["b", "c", "d"] (by decide) (by decide) (Or.inl (by decide))

/-- Witness of C5 on the sample dataset with the query `[a, b, c]` and `topn = 2`. -/
theorem C5_exact_topn_witness :
    ∃ keys scores comps,
      BestMatches Runtime.simple sampleDataset ["a", "b", "c"] 2 =
        Except.ok (keys, scores, comps) ∧
      keys.length = min (2 : Int).toNat sampleDataset.length ∧
      keys.Nodup ∧
      (∀ k ∈ keys, k ∈ GoMap.keys sampleDataset) ∧
      scores = keys.map
        (fun k => exactScore (querySet ["a", "b", "c"]) (GoMap.index sampleDataset k [])) ∧
      scores.Pairwise (fun s t => F64.ge s t = true) ∧
      (∀ k ∈ GoMap.keys sampleDataset, k ∉ keys → ∀ s, scores.getLast? = some s →
        F64.ge s (exactScore (querySet ["a", "b", "c"]) (GoMap.index sampleDataset k [])) =
          true) :=
  C5_exact_topn Runtime.simple simple_lawful sampleDataset sample_keys_nodup
    ["a", "b", "c"] (by decide) 2 (by decide)

/-- C6, as amended: for every `topn >= 0` the exact `BestMatches` returns, and its
`comps` is the number of dataset entries whose union count is positive and whose
intersection over union is at least 0.95, whatever `topn` is; the degenerate
comparison of an empty query with an empty entry is not counted. -/
theorem C6_exact_comps (rt : Runtime) (hrt : rt.Lawful) (dataset : GoMap (List String))
    (hkeys : (GoMap.keys dataset).Nodup) (data : List String) (topn : Int)
    (htop : 0 ≤ topn) :
    (∃ keys scores, BestMatches rt dataset data topn =
      Except.ok (keys, scores, dataset.countP (fun e => exactHit (querySet data) e.2))) ∧
    exactHit (querySet []) [] = false := by
  constructor
  · unfold BestMatches
    simp only
    rw [rankTopN_nonneg rt _ topn htop,
      exactLoop_init _ _ (range_keys_nodup rt hrt dataset hkeys),
      (hrt.range_perm dataset).countP_eq]
    exact ⟨_, _, rfl⟩
  · decide

/-- Witness of C6 on the sample dataset with the query `[a, b, c]` and `topn = 0`. -/
theorem C6_exact_comps_witness :
    (∃ keys scores, BestMatches Runtime.simple sampleDataset ["a", "b", "c"] 0 =
      Except.ok (keys, scores,
        sampleDataset.countP (fun e => exactHit (querySet ["a", "b", "c"]) e.2))) ∧
    exactHit (querySet []) [] = false :=
  C6_exact_comps Runtime.simple simple_lawful sampleDataset sample_keys_nodup
    ["a", "b", "c"] 0 (by decide)

/-- Counterexample to C6 as stated for every `topn`: with `topn = -1` the slice
expression `keys[:topn]` panics, so no `comps` value is returned. -/
theorem C6_negative_topn_panics :
    BestMatches Runtime.simple sampleDataset ["a", "b", "c"] (-1) =
      Except.error "slice bounds out of range" := by
  unfold BestMatches
  exact rankTopN_neg _ _ (-1) (by decide)

/-! ## The folded path end to end -/

theorem mem_store_self {ν : Type} (k : String) (v : ν) : ∀ (m : GoMap ν),
    (k, v) ∈ GoMap.store m k v
  | [] => by simp [GoMap.store]
  | (k', v') :: rest => by
    by_cases h : k' = k
    · simp [GoMap.store, h]
    · simp only [GoMap.store, h, if_false, List.mem_cons]
      exact Or.inr (mem_store_self k v rest)

theorem store_keys_nodup {ν : Type} (k : String) (v : ν) (m : GoMap ν)
    (h : (GoMap.keys m).Nodup) : (GoMap.keys (GoMap.store m k v)).Nodup := by
  rw [keys_store]
  split
  · exact h
  · rename_i hk
    exact List.nodup_append.mpr ⟨h, List.nodup_singleton k, by
      intro a ha hb
      rw [List.mem_singleton] at hb
      exact hk (hb ▸ ha)⟩

theorem mem_of_find {ν : Type} (k : String) (v : ν) : ∀ (m : GoMap ν),
    GoMap.find m k = some v → (k, v) ∈ m
  | [], h => by simp [GoMap.find] at h
  | (k', v') :: rest, h => by
    by_cases hk : k' = k
    · subst hk
      simp only [GoMap.find, if_true, Option.some.injEq] at h
      subst h
      exact List.mem_cons_self _ _
    · simp only [GoMap.find, hk, if_false] at h
      exact List.mem_cons_of_mem _ (mem_of_find k v rest h)

theorem foldl_store_map {ν μ : Type} (f : ν → μ) : ∀ (l : GoMap ν) (acc : GoMap μ),
    (GoMap.keys acc ++ GoMap.keys l).Nodup →
    l.foldl (fun m e => GoMap.store m e.1 (f e.2)) acc =
      acc ++ l.map (fun e => (e.1, f e.2)) := by
  intro l
  induction l with
  | nil => intro acc _; simp
  | cons e rest ih =>
    intro acc hnd
    have hnot : e.1 ∉ GoMap.keys acc := by
      intro hmem
      exact (List.nodup_append.mp hnd).2.2 hmem (by simp [GoMap.keys])
    rw [List.foldl_cons, store_of_not_mem _ _ _ hnot, ih]
    · simp
    · simpa [GoMap.keys] using hnd

theorem foldAll_folds (rt : Runtime) (hrt : rt.Lawful) (s : BloomSet)
    (hbf : (GoMap.keys s.bf).Nodup) (bitsize : Nat) :
    (BloomSet.FoldAll rt s bitsize).folds =
      (rt.range s.bf).map (fun e => (e.1, FoldFilterWithSize e.2 bitsize)) := by
  unfold BloomSet.FoldAll
  simp only
  rw [foldl_store_map (fun bf => FoldFilterWithSize bf bitsize) (rt.range s.bf) []
    (by simpa [GoMap.keys] using range_keys_nodup rt hrt s.bf hbf)]
  simp

theorem fold_hasSetBit (orig : BloomFilter) (newsize : Nat) (h : HasSetBit orig.parts) :
    HasSetBit (FoldFilterWithSize orig newsize).parts := by
  obtain ⟨w, hw, i, hi, hbit⟩ := h
  obtain ⟨j, hj, hget⟩ := List.getElem_of_mem hw
  have hlt : j % (1 + newsize / 64) < 1 + newsize / 64 := Nat.mod_lt _ (by omega)
  refine ⟨orAtResidue orig.parts (1 + newsize / 64) (j % (1 + newsize / 64)), ?_, i, hi, ?_⟩
  · rw [fold_parts_eq]
    exact List.mem_map.mpr ⟨_, List.mem_range.mpr hlt, rfl⟩
  · rw [testBit_orAtResidue]
    exact ⟨j, w, by rw [List.getElem?_eq_getElem hj, hget], rfl, hbit⟩

theorem similarity_simValue (b a : foldedBloomFilter) (h : a.parts.length = b.parts.length) :
    b.Similarity a = Except.ok (simValue b a) :=
  similarity_eq b a h

theorem simValue_fin (b a : foldedBloomFilter) (hlen : a.parts.length = b.parts.length)
    (hpos : 0 < popcount a.parts) :
    ∃ x : ℚ, simValue b a = F64.fin x ∧ x ≤ 1 := by
  have h1 := popcount_le_or_right b.parts a.parts (by omega)
  have h2 := popcount_and_le_or b.parts a.parts
  have hd : 0 < popcount (List.zipWith (fun x y => x ||| y) b.parts a.parts) := by omega
  refine ⟨_, divNat_fin hd, ?_⟩
  rw [div_le_one (by exact_mod_cast hd)]
  exact_mod_cast h2

theorem simValue_self (a : foldedBloomFilter) (hpos : 0 < popcount a.parts) :
    simValue a a = F64.fin 1 := by
  unfold simValue
  rw [zipWith_and_self, zipWith_or_self, divNat_self hpos]

theorem foldedStep_eq (fq : foldedBloomFilter) (st : MatchState)
    (e : String × foldedBloomFilter) (hlen : e.2.parts.length = fq.parts.length)
    (h : e.1 ∉ GoMap.keys st.res) :
    foldedStep fq st e =
      Except.ok
        { res := st.res ++ [(e.1, simValue e.2 fq)]
          keys := st.keys ++ [e.1]
          comps := st.comps + (if F64.ge (simValue e.2 fq) CompThreshold then 1 else 0) } := by
  unfold foldedStep
  rw [similarity_simValue e.2 fq hlen.symm]
  simp only
  rw [store_of_not_mem _ _ _ h]
  congr 1
  rw [MatchState.mk.injEq]
  refine ⟨rfl, rfl, ?_⟩
  split <;> simp_all

theorem foldedLoop_eq (fq : foldedBloomFilter) :
    ∀ (l : List (String × foldedBloomFilter)) (st : MatchState),
    (GoMap.keys st.res ++ GoMap.keys l).Nodup →
    (∀ e ∈ l, e.2.parts.length = fq.parts.length) →
    foldedLoop fq l st =
      Except.ok
        { res := st.res ++ l.map (fun e => (e.1, simValue e.2 fq))
          keys := st.keys ++ GoMap.keys l
          comps := st.comps + l.countP (fun e => F64.ge (simValue e.2 fq) CompThreshold) } := by
  intro l
  induction l with
  | nil => intro st _ _; simp [foldedLoop, GoMap.keys]
  | cons e rest ih =>
    intro st hnd hlen
    have hnot : e.1 ∉ GoMap.keys st.res := by
      intro hmem
      exact (List.nodup_append.mp hnd).2.2 hmem (by simp [GoMap.keys])
    rw [foldedLoop, foldedStep_eq fq st e (hlen e (List.mem_cons_self _ _)) hnot]
    simp only
    rw [ih]
    · simp only [List.append_assoc, List.singleton_append, List.map_cons, GoMap.keys,
        List.countP_cons, Nat.add_assoc]
      congr 1
      rw [MatchState.mk.injEq]
      exact ⟨rfl, rfl, by omega⟩
    · simpa [GoMap.keys] using hnd
    · exact fun e1 he1 => hlen e1 (List.mem_cons_of_mem _ he1)

theorem one_ge_threshold : F64.ge (F64.fin 1) CompThreshold = true := by
  rw [ge_threshold_fin, decide_eq_true_eq]
  norm_num

theorem foldedBest_spec (rt : Runtime) (hrt : rt.Lawful) (ops : SketchOps) (s : BloomSet)
    (L : List String) (topn : Int) (htop : 1 ≤ topn) (y : String)
    (hk : (GoMap.keys s.folds).Nodup)
    (hlen : ∀ e ∈ s.folds, e.2.parts.length = 1 + s.foldbits / 64)
    (hy : (y, FoldFilterWithSize (newSketch ops s.sz L) s.foldbits) ∈ s.folds)
    (hbit : HasSetBit (newSketch ops s.sz L).parts) :
    ∃ keys scores comps,
      BloomSet.FoldedBestMatches rt ops s L topn = Except.ok (keys, scores, comps) ∧
      1 ≤ comps ∧ scores.head? = some (F64.fin 1) := by
  have hfq : (FoldFilterWithSize (newSketch ops s.sz L) s.foldbits).parts.length =
      1 + s.foldbits / 64 := fold_length _ _
  have hpos : 0 < popcount (FoldFilterWithSize (newSketch ops s.sz L) s.foldbits).parts :=
    popcount_pos_of_hasSetBit (fold_hasSetBit _ _ hbit)
  have hperm := hrt.range_perm s.folds
  have hnd := range_keys_nodup rt hrt s.folds hk
  have hlen2 : ∀ e ∈ rt.range s.folds, e.2.parts.length =
      (FoldFilterWithSize (newSketch ops s.sz L) s.foldbits).parts.length := by
    intro e he
    rw [hfq]
    exact hlen e (hperm.mem_iff.mp he)
  have hy2 := hperm.mem_iff.mpr hy
  have hloop : foldedLoop (FoldFilterWithSize (newSketch ops s.sz L) s.foldbits)
      (rt.range s.folds) MatchState.init =
      Except.ok
        { res := (rt.range s.folds).map (fun e =>
            (e.1, simValue e.2 (FoldFilterWithSize (newSketch ops s.sz L) s.foldbits)))
          keys := GoMap.keys (rt.range s.folds)
          comps := (rt.range s.folds).countP (fun e =>
            F64.ge (simValue e.2 (FoldFilterWithSize (newSketch ops s.sz L) s.foldbits))
              CompThreshold) } := by
    rw [foldedLoop_eq (FoldFilterWithSize (newSketch ops s.sz L) s.foldbits)
      (rt.range s.folds) MatchState.init
      (by simpa [MatchState.init, GoMap.keys] using hnd) hlen2]
    simp [MatchState.init]
  unfold BloomSet.FoldedBestMatches
  simp only [hloop]
  have hfin : ∀ k, ∃ x : ℚ,
      GoMap.index ((rt.range s.folds).map (fun e =>
        (e.1, simValue e.2 (FoldFilterWithSize (newSketch ops s.sz L) s.foldbits)))) k
        (F64.fin 0) = F64.fin x ∧ x ≤ 1 := by
    intro k
    simp only [GoMap.index]
    rw [find_map_val
      (fun v => simValue v (FoldFilterWithSize (newSketch ops s.sz L) s.foldbits))]
    cases hf : GoMap.find (rt.range s.folds) k with
    | none => exact ⟨0, rfl, by norm_num⟩
    | some v =>
      have hv := hlen2 (k, v) (mem_of_find k v _ hf)
      exact simValue_fin v _ hv.symm hpos
  have hidxy : GoMap.index ((rt.range s.folds).map (fun e =>
        (e.1, simValue e.2 (FoldFilterWithSize (newSketch ops s.sz L) s.foldbits)))) y
        (F64.fin 0) = F64.fin 1 := by
    simp only [GoMap.index]
    rw [find_map_val
      (fun v => simValue v (FoldFilterWithSize (newSketch ops s.sz L) s.foldbits)),
      find_of_mem y _ _ hnd hy2]
    exact simValue_self _ hpos
  obtain ⟨sorted, hsperm, hpw, hrank⟩ := rank_spec rt hrt
    { res := (rt.range s.folds).map (fun e =>
        (e.1, simValue e.2 (FoldFilterWithSize (newSketch ops s.sz L) s.foldbits)))
      keys := GoMap.keys (rt.range s.folds)
      comps := (rt.range s.folds).countP (fun e =>
        F64.ge (simValue e.2 (FoldFilterWithSize (newSketch ops s.sz L) s.foldbits))
          CompThreshold) }
    topn (by omega) (fun k => (hfin k).imp (fun _ h => h.1))
  simp only at hsperm hpw
  refine ⟨_, _, _, hrank, ?_, ?_⟩
  · apply List.countP_pos_iff.mpr
    refine ⟨_, hy2, ?_⟩
    simp only
    rw [simValue_self _ hpos]
    exact one_ge_threshold
  · have hys : y ∈ sorted :=
      hsperm.mem_iff.mpr (List.mem_map.mpr ⟨_, hy2, rfl⟩)
    obtain ⟨n, hn⟩ : ∃ n, topn.toNat = n + 1 := ⟨topn.toNat - 1, by omega⟩
    cases sorted with
    | nil => simp at hys
    | cons h t =>
      rw [hn, List.take_succ_cons, List.map_cons, List.head?_cons]
      congr 1
      obtain ⟨x, hx, hx1⟩ := hfin h
      rw [hx]
      congr 1
      apply le_antisymm hx1
      rcases List.mem_cons.mp hys with e | hyt
      · subst e
        rw [hidxy] at hx
        cases hx
        exact le_refl _
      · have hge := (List.pairwise_cons.mp hpw).1 y hyt
        rw [hx, hidxy, ge_fin, decide_eq_true_eq] at hge
        exact hge

/-- C10: after `Add(y, L)` and `FoldAll(b)`, `FoldedBestMatches(L, topn)` with
`topn >= 1` returns, reports `comps >= 1` and has the first score exactly 1, which
meets the threshold 0.95, provided the sketch built from `L` has a set bit. -/
theorem C10_folded_self_match (rt : Runtime) (hrt : rt.Lawful) (ops : SketchOps)
    (s : BloomSet) (hbf : (GoMap.keys s.bf).Nodup) (y : String) (L : List String) (b : Nat)
    (topn : Int) (htop : 1 ≤ topn) (hbit : HasSetBit (newSketch ops s.sz L).parts) :
    ∃ keys scores comps,
      BloomSet.FoldedBestMatches rt ops (BloomSet.FoldAll rt (BloomSet.Add ops s y L) b) L
        topn = Except.ok (keys, scores, comps) ∧
      1 ≤ comps ∧ scores.head? = some (F64.fin 1) ∧
      F64.ge (F64.fin 1) CompThreshold = true := by
  have hbf1 : (GoMap.keys (BloomSet.Add ops s y L).bf).Nodup :=
    store_keys_nodup y _ s.bf hbf
  have hfolds := foldAll_folds rt hrt (BloomSet.Add ops s y L) hbf1 b
  have hspec := foldedBest_spec rt hrt ops (BloomSet.FoldAll rt (BloomSet.Add ops s y L) b)
    L topn htop y
    (by
      rw [hfolds, keys_map_val (fun bf => FoldFilterWithSize bf b)]
      exact range_keys_nodup rt hrt _ hbf1)
    (by
      intro e he
      rw [hfolds] at he
      obtain ⟨e0, _, rfl⟩ := List.mem_map.mp he
      exact fold_length _ _)
    (by
      rw [hfolds]
      refine List.mem_map.mpr ⟨(y, newSketch ops s.sz L), ?_, rfl⟩
      exact (hrt.range_perm _).mem_iff.mpr (mem_store_self y _ s.bf))
    hbit
  obtain ⟨keys, scores, comps, h1, h2, h3⟩ := hspec
  exact ⟨keys, scores, comps, h1, h2, h3, one_ge_threshold⟩

theorem toy_hasSetBit : HasSetBit (newSketch toyOps emptySet.sz ["a"]).parts :=
  ⟨1, by decide, 0, by decide, by decide⟩

/-- Witness of C10: the toy sketch of `[a]` added under the key `y` to an empty
collection, folded to 64 bits and queried with `topn = 1`. -/
theorem C10_folded_self_match_witness :
    HasSetBit (newSketch toyOps emptySet.sz ["a"]).parts ∧
    ∃ keys scores comps,
      BloomSet.FoldedBestMatches Runtime.simple toyOps
        (BloomSet.FoldAll Runtime.simple (BloomSet.Add toyOps emptySet "y" ["a"]) 64) ["a"]
        1 = Except.ok (keys, scores, comps) ∧
      1 ≤ comps ∧ scores.head? = some (F64.fin 1) ∧
      F64.ge (F64.fin 1) CompThreshold = true :=
  ⟨toy_hasSetBit,
    C10_folded_self_match Runtime.simple simple_lawful toyOps emptySet (by decide) "y" ["a"]
      64 1 (by decide) toy_hasSetBit⟩

/-! ## Rounding to binary64 -/

theorem roundHalfEven_intCast (z : Int) : roundHalfEven (z : ℚ) = z := by
  unfold roundHalfEven
  simp

theorem log_eq_of_bounds (q : ℚ) (e : Int) (h1 : (2 : ℚ) ^ e ≤ |q|) (h2 : |q| < (2 : ℚ) ^ (e + 1)) :
    Int.log 2 |q| = e := by
  have hpos : (0 : ℚ) < |q| := lt_of_lt_of_le (by positivity) h1
  have ha : e ≤ Int.log 2 |q| := (Int.zpow_le_iff_le_log (by decide) hpos).mp (by exact_mod_cast h1)
  have hb : Int.log 2 |q| < e + 1 := (Int.lt_zpow_iff_log_lt (by decide) hpos).mp (by exact_mod_cast h2)
  omega

theorem round_of_scaled (q : ℚ) (z : Int)
    (hz : q = (z : ℚ) * (2 : ℚ) ^ (max (Int.log 2 |q| - 52) (-1074)))
    (hlt : |q| < (2 : ℚ) ^ (1024 : Nat)) : Float64.round q = Float64.fin q := by
  unfold Float64.round
  by_cases h0 : q = 0
  · simp [h0]
  · rw [if_neg h0]
    simp only
    have hpow : (2 : ℚ) ^ (max (Int.log 2 |q| - 52) (-1074)) ≠ 0 := by positivity
    have hs : q / (2 : ℚ) ^ (max (Int.log 2 |q| - 52) (-1074)) = (z : ℚ) := by
      rw [div_eq_iff hpow]
      exact hz
    rw [hs, roundHalfEven_intCast, ← hz, if_neg (not_le.mpr hlt)]

theorem round_dyadic (m k : Int) (hm : |m| < 2 ^ 53) (hk : -1074 ≤ k)
    (hlt : |(m : ℚ) * (2 : ℚ) ^ k| < (2 : ℚ) ^ (1024 : Nat)) :
    Float64.round ((m : ℚ) * (2 : ℚ) ^ k) = Float64.fin ((m : ℚ) * (2 : ℚ) ^ k) := by
  by_cases hm0 : m = 0
  · subst hm0
    simp [Float64.round]
  have h2k : (0 : ℚ) < (2 : ℚ) ^ k := by positivity
  have hq0 : (0 : ℚ) < |(m : ℚ) * (2 : ℚ) ^ k| := by
    apply abs_pos.mpr
    exact mul_ne_zero (by exact_mod_cast hm0) (ne_of_gt h2k)
  have hle : (2 : ℚ) ^ (Int.log 2 |(m : ℚ) * (2 : ℚ) ^ k|) ≤ |(m : ℚ) * (2 : ℚ) ^ k| := by
    have := Int.zpow_log_le_self (b := 2) (by decide) hq0
    exact_mod_cast this
  have hupper : |(m : ℚ) * (2 : ℚ) ^ k| < (2 : ℚ) ^ (53 + k) := by
    rw [abs_mul, abs_of_pos h2k, zpow_add₀ (by norm_num : (2 : ℚ) ≠ 0)]
    apply mul_lt_mul_of_pos_right _ h2k
    have : ((|m| : Int) : ℚ) < ((2 ^ 53 : Int) : ℚ) := by exact_mod_cast hm
    rw [← Int.cast_abs]
    norm_num at this ⊢
    exact this
  have hlog : Int.log 2 |(m : ℚ) * (2 : ℚ) ^ k| < 53 + k := by
    have := lt_of_le_of_lt hle hupper
    exact (zpow_lt_zpow_iff_right₀ (by norm_num : (1 : ℚ) < 2)).mp this
  have hu : max (Int.log 2 |(m : ℚ) * (2 : ℚ) ^ k| - 52) (-1074) ≤ k := by omega
  obtain ⟨d, hd⟩ := Int.eq_ofNat_of_zero_le (sub_nonneg.mpr hu)
  apply round_of_scaled _ (m * 2 ^ d) _ hlt
  have hk2 : k = (d : Int) + max (Int.log 2 |(m : ℚ) * (2 : ℚ) ^ k| - 52) (-1074) := by omega
  generalize max (Int.log 2 |(m : ℚ) * (2 : ℚ) ^ k| - 52) (-1074) = u at hk2 ⊢
  rw [hk2, zpow_add₀ (by norm_num : (2 : ℚ) ≠ 0)]
  push_cast
  rw [zpow_natCast]
  ring

theorem round_intCast (n : Int) (h : |n| ≤ 2 ^ 53) :
    Float64.round (n : ℚ) = Float64.fin (n : ℚ) := by
  by_cases hlt : |n| < 2 ^ 53
  · have hb : |(n : ℚ) * (2 : ℚ) ^ (0 : Int)| < (2 : ℚ) ^ (1024 : Nat) := by
      rw [zpow_zero, mul_one, ← Int.cast_abs]
      have : ((|n| : Int) : ℚ) < ((2 ^ 53 : Int) : ℚ) := by exact_mod_cast hlt
      refine lt_trans this ?_
      norm_num
    have := round_dyadic n 0 hlt (by decide) hb
    simpa using this
  · have habs : |n| = 2 ^ 53 := le_antisymm h (not_lt.mp hlt)
    have hcases : n = 2 ^ 53 ∨ n = -(2 ^ 53) := by
      rcases abs_cases n with ⟨h1, _⟩ | ⟨h1, _⟩ <;> omega
    rcases hcases with rfl | rfl
    · have := round_dyadic (2 ^ 52) 1 (by decide) (by decide) (by norm_num)
      have he : (((2 : Int) ^ 52 : Int) : ℚ) * (2 : ℚ) ^ (1 : Int) = (((2 : Int) ^ 53 : Int) : ℚ) := by
        norm_num
      rw [he] at this
      exact this
    · have := round_dyadic (-(2 ^ 52)) 1 (by decide) (by decide) (by norm_num)
      have he : ((-(2 : Int) ^ 52 : Int) : ℚ) * (2 : ℚ) ^ (1 : Int) = ((-(2 : Int) ^ 53 : Int) : ℚ) := by
        norm_num
      rw [he] at this
      exact this

theorem roundHalfEven_down (s : ℚ) (f : Int) (h1 : (f : ℚ) ≤ s) (h2 : s - (f : ℚ) < 1 / 2) :
    roundHalfEven s = f := by
  have hf : ⌊s⌋ = f := Int.floor_eq_iff.mpr ⟨h1, by linarith⟩
  unfold roundHalfEven
  rw [hf, if_pos h2]

theorem roundHalfEven_tie_even (s : ℚ) (f : Int) (h : s = (f : ℚ) + 1 / 2) (hev : f % 2 = 0) :
    roundHalfEven s = f := by
  have hf : ⌊s⌋ = f := Int.floor_eq_iff.mpr ⟨by linarith, by linarith⟩
  unfold roundHalfEven
  rw [hf, if_neg (by linarith), if_neg (by linarith), if_pos hev]

theorem round_of_log (q : ℚ) (e : Int) (h1 : (2 : ℚ) ^ e ≤ |q|) (h2 : |q| < (2 : ℚ) ^ (e + 1)) :
    Float64.round q =
      (if (2 : ℚ) ^ (1024 : Nat) ≤
          |(roundHalfEven (q / (2 : ℚ) ^ (max (e - 52) (-1074))) : ℚ) *
            (2 : ℚ) ^ (max (e - 52) (-1074))|
       then Float64.inf (decide (q < 0))
       else Float64.fin ((roundHalfEven (q / (2 : ℚ) ^ (max (e - 52) (-1074))) : ℚ) *
            (2 : ℚ) ^ (max (e - 52) (-1074)))) := by
  have hq : q ≠ 0 := by
    intro h
    rw [h, abs_zero] at h1
    exact absurd h1 (not_le.mpr (by positivity))
  unfold Float64.round
  rw [if_neg hq, log_eq_of_bounds q e h1 h2]

theorem round_tie_53 : Float64.round (2 ^ 53 + 1) = Float64.fin (2 ^ 53) := by
  rw [round_of_log (2 ^ 53 + 1) 53 (by norm_num [abs_of_pos]) (by norm_num [abs_of_pos])]
  have hu : max ((53 : Int) - 52) (-1074) = 1 := by decide
  rw [hu, roundHalfEven_tie_even _ (2 ^ 52) (by norm_num) (by decide)]
  norm_num

theorem round_2_60_succ : Float64.round (2 ^ 60 + 1) = Float64.fin (2 ^ 60) := by
  rw [round_of_log (2 ^ 60 + 1) 60 (by norm_num [abs_of_pos]) (by norm_num [abs_of_pos])]
  have hu : max ((60 : Int) - 52) (-1074) = 8 := by decide
  rw [hu, roundHalfEven_down _ (2 ^ 52) (by norm_num) (by norm_num)]
  norm_num

theorem ofInt_exact (n : Int) (h : |n| ≤ 2 ^ 53) : Float64.ofInt n = Float64.fin (n : ℚ) :=
  round_intCast n h

theorem add_int (a b : Int) (h : |a + b| ≤ 2 ^ 53) :
    Float64.add (Float64.fin (a : ℚ)) (Float64.fin (b : ℚ)) = Float64.fin ((a + b : Int) : ℚ) := by
  have := round_intCast (a + b) h
  rw [Int.cast_add] at this
  rw [Int.cast_add]
  exact this

/-! ## The aggregator of `parallelCollect` -/

theorem sizeGroup_eq_min (n : Nat) : sizeGroup n = min (1 + n / 50) 3 := by
  unfold sizeGroup SizeGroups SizeGroupSplits
  simp only
  split <;> omega

theorem sizeGroup_cases (n : Nat) : sizeGroup n = 1 ∨ sizeGroup n = 2 ∨ sizeGroup n = 3 := by
  rw [sizeGroup_eq_min]
  omega

theorem range_four : List.range 4 = [0, 1, 2, 3] := by decide

theorem aggStep_four {α : Type} (ar : FloatArith α) (a0 a1 a2 a3 c0 c1 c2 c3 : α)
    (r : Rec α) :
    aggStep ar ⟨[a0, a1, a2, a3], [c0, c1, c2, c3]⟩ r =
      some
        ⟨[(if inBucket 0 r then ar.add a0 r.elap else a0),
          (if inBucket 1 r then ar.add a1 r.elap else a1),
          (if inBucket 2 r then ar.add a2 r.elap else a2),
          (if inBucket 3 r then ar.add a3 r.elap else a3)],
         [(if inBucket 0 r then ar.add c0 (ar.ofInt r.result) else c0),
          (if inBucket 1 r then ar.add c1 (ar.ofInt r.result) else c1),
          (if inBucket 2 r then ar.add c2 (ar.ofInt r.result) else c2),
          (if inBucket 3 r then ar.add c3 (ar.ofInt r.result) else c3)]⟩ := by
  rcases sizeGroup_cases r.data.length with h | h | h <;>
    simp [aggStep, addAt, inBucket, h, List.modify, List.modifyTailIdx, List.modifyHead]

theorem bucketFold_nil {α : Type} (ar : FloatArith α) (f : Rec α → α) (i : Nat) (a : α) :
    bucketFold ar f [] i a = a := rfl

theorem bucketFold_cons {α : Type} (ar : FloatArith α) (f : Rec α → α) (r : Rec α)
    (rs : List (Rec α)) (i : Nat) (a : α) :
    bucketFold ar f (r :: rs) i a =
      bucketFold ar f rs i (if inBucket i r then ar.add a (f r) else a) := by
  unfold bucketFold
  cases h : inBucket i r
  · simp [List.filter_cons, h]
  · simp [List.filter_cons, h]

theorem aggregate_four {α : Type} (ar : FloatArith α) (rs : List (Rec α)) :
    ∀ (a0 a1 a2 a3 c0 c1 c2 c3 : α),
    aggregate ar ⟨[a0, a1, a2, a3], [c0, c1, c2, c3]⟩ rs =
      some
        ⟨[bucketFold ar Rec.elap rs 0 a0, bucketFold ar Rec.elap rs 1 a1,
          bucketFold ar Rec.elap rs 2 a2, bucketFold ar Rec.elap rs 3 a3],
         [bucketFold ar (fun r => ar.ofInt r.result) rs 0 c0,
          bucketFold ar (fun r => ar.ofInt r.result) rs 1 c1,
          bucketFold ar (fun r => ar.ofInt r.result) rs 2 c2,
          bucketFold ar (fun r => ar.ofInt r.result) rs 3 c3]⟩ := by
  induction rs with
  | nil =>
    intro a0 a1 a2 a3 c0 c1 c2 c3
    simp [aggregate, bucketFold_nil]
  | cons r rest ih =>
    intro a0 a1 a2 a3 c0 c1 c2 c3
    rw [aggregate, aggStep_four]
    simp only
    rw [ih]
    simp only [bucketFold_cons]

theorem aggregate_init {α : Type} (ar : FloatArith α) (rs : List (Rec α)) :
    aggregate ar (Totals.init ar) rs =
      some
        ⟨(List.range (SizeGroupSplits + 1)).map
            (fun i => bucketFold ar Rec.elap rs i ar.zero),
         (List.range (SizeGroupSplits + 1)).map
            (fun i => bucketFold ar (fun r => ar.ofInt r.result) rs i ar.zero)⟩ := by
  have h := aggregate_four ar rs ar.zero ar.zero ar.zero ar.zero ar.zero ar.zero ar.zero ar.zero
  have hr : List.range (SizeGroupSplits + 1) = [0, 1, 2, 3] := by decide
  rw [hr]
  exact h

theorem aggregate_three_groups {α : Type} (ar : FloatArith α) (r1 r2 r3 : Rec α)
    (h1 : sizeGroup r1.data.length = 1) (h2 : sizeGroup r2.data.length = 2)
    (h3 : sizeGroup r3.data.length = 3) :
    aggregate ar (Totals.init ar) [r1, r2, r3] =
      some
        ⟨[ar.add (ar.add (ar.add ar.zero r1.elap) r2.elap) r3.elap, ar.add ar.zero r1.elap,
            ar.add ar.zero r2.elap, ar.add ar.zero r3.elap],
          [ar.add (ar.add (ar.add ar.zero (ar.ofInt r1.result)) (ar.ofInt r2.result))
              (ar.ofInt r3.result),
            ar.add ar.zero (ar.ofInt r1.result), ar.add ar.zero (ar.ofInt r2.result),
            ar.add ar.zero (ar.ofInt r3.result)]⟩ := by
  have hr : List.range (SizeGroupSplits + 1) = [0, 1, 2, 3] := by decide
  rw [aggregate_init, hr]
  simp [bucketFold, inBucket, h1, h2, h3]

/-- C12: the aggregator adds a record with item-list length `n` to the size bucket
`min(1 + n / 50, 3)`, which lies in `1..SizeGroupSplits`: lengths below 50 go to
bucket 1, lengths 50 to 99 to bucket 2, lengths from 100 on to bucket 3 (10, 60 and
160 go to buckets 1, 2 and 3).  For every arithmetic of the floats and every
sequence of records the aggregator loop ends without an index panic, and each of
its `SizeGroupSplits + 1` buckets holds the values of exactly the records of
that bucket, added in arrival order: all records for bucket 0, the records of
size group `i` for bucket `i`.  On three records with 10, 60 and 160 items and
the results 5, 7 and 11 the loop adds each record to bucket 0 and to the one
bucket of its size. -/
theorem C12_size_bucket {α : Type} (ar : FloatArith α) (n : Nat) (rs : List (Rec α))
    (r : Rec α) (i : Nat) (e1 e2 e3 : α) :
    sizeGroup n = min (1 + n / 50) 3 ∧
    1 ≤ sizeGroup n ∧ sizeGroup n ≤ SizeGroupSplits ∧
    (sizeGroup n = 1 ↔ n < 50) ∧
    (sizeGroup n = 2 ↔ 50 ≤ n ∧ n < 100) ∧
    (sizeGroup n = 3 ↔ 100 ≤ n) ∧
    sizeGroup 10 = 1 ∧ sizeGroup 60 = 2 ∧ sizeGroup 160 = 3 ∧
    aggregate ar (Totals.init ar) rs =
      some
        ⟨(List.range (SizeGroupSplits + 1)).map
            (fun i => bucketFold ar Rec.elap rs i ar.zero),
         (List.range (SizeGroupSplits + 1)).map
            (fun i => bucketFold ar (fun r => ar.ofInt r.result) rs i ar.zero)⟩ ∧
    (inBucket i r = true ↔ i = 0 ∨ i = sizeGroup r.data.length) ∧
    bucketFold ar (fun r => ar.ofInt r.result) (rs ++ [r]) i ar.zero =
      (if i = 0 ∨ i = sizeGroup r.data.length
       then ar.add (bucketFold ar (fun r => ar.ofInt r.result) rs i ar.zero)
              (ar.ofInt r.result)
       else bucketFold ar (fun r => ar.ofInt r.result) rs i ar.zero) ∧
    bucketFold ar Rec.elap (rs ++ [r]) i ar.zero =
      (if i = 0 ∨ i = sizeGroup r.data.length
       then ar.add (bucketFold ar Rec.elap rs i ar.zero) r.elap
       else bucketFold ar Rec.elap rs i ar.zero) ∧
    aggregate ar (Totals.init ar)
        [⟨"a", List.replicate 10 "i", 5, e1⟩, ⟨"b", List.replicate 60 "i", 7, e2⟩,
          ⟨"c", List.replicate 160 "i", 11, e3⟩] =
      some
        ⟨[ar.add (ar.add (ar.add ar.zero e1) e2) e3, ar.add ar.zero e1, ar.add ar.zero e2,
            ar.add ar.zero e3],
          [ar.add (ar.add (ar.add ar.zero (ar.ofInt 5)) (ar.ofInt 7)) (ar.ofInt 11),
            ar.add ar.zero (ar.ofInt 5), ar.add ar.zero (ar.ofInt 7),
            ar.add ar.zero (ar.ofInt 11)]⟩ := by
  have hmin := sizeGroup_eq_min n
  have hin : inBucket i r = true ↔ i = 0 ∨ i = sizeGroup r.data.length := by
    unfold inBucket
    simp only [Bool.or_eq_true, decide_eq_true_eq]
    constructor
    · rintro (h | h)
      · exact Or.inl h
      · exact Or.inr h.symm
    · rintro (h | h)
      · exact Or.inl h
      · exact Or.inr h.symm
  have happ : ∀ f : Rec α → α, bucketFold ar f (rs ++ [r]) i ar.zero =
      (if i = 0 ∨ i = sizeGroup r.data.length
       then ar.add (bucketFold ar f rs i ar.zero) (f r)
       else bucketFold ar f rs i ar.zero) := by
    intro f
    unfold bucketFold
    rw [List.filter_append]
    by_cases hb : i = 0 ∨ i = sizeGroup r.data.length
    · rw [if_pos hb, List.filter_cons_of_pos (hin.mpr hb)]
      simp
    · have hf : ¬ inBucket i r = true := fun h => hb (hin.mp h)
      rw [if_neg hb, List.filter_cons_of_neg hf]
      simp
  refine ⟨hmin, ?_, ?_, ?_, ?_, ?_, by decide, by decide, by decide, aggregate_init ar rs,
    hin, happ _, happ _,
    aggregate_three_groups ar _ _ _ (by rw [List.length_replicate]; decide)
      (by rw [List.length_replicate]; decide) (by rw [List.length_replicate]; decide)⟩
  · omega
  · unfold SizeGroupSplits
    omega
  · omega
  · omega
  · omega

/-! ## Order of arrival -/

theorem abs_sum_nonneg {α : Type} (rs : List (Rec α)) :
    0 ≤ (rs.map (fun r => |r.result|)).sum := by
  apply List.sum_nonneg
  intro x hx
  obtain ⟨r, _, rfl⟩ := List.mem_map.mp hx
  exact abs_nonneg _

theorem bucketCount_cons {α : Type} (r : Rec α) (rs : List (Rec α)) (i : Nat) :
    bucketCount (r :: rs) i =
      (if inBucket i r then r.result else 0) + bucketCount rs i := by
  unfold bucketCount
  cases h : inBucket i r
  · simp [List.filter_cons, h]
  · simp [List.filter_cons, h]

theorem bucketCount_perm {α : Type} {rs1 rs2 : List (Rec α)} (h : rs1.Perm rs2) (i : Nat) :
    bucketCount rs1 i = bucketCount rs2 i := by
  unfold bucketCount
  exact ((h.filter _).map _).sum_eq

theorem count_fold_exact (i : Nat) : ∀ (rs : List (Rec Float64)) (z : Int),
    |z| + (rs.map (fun r => |r.result|)).sum ≤ 2 ^ 53 →
    bucketFold Float64.arith (fun r => Float64.ofInt r.result) rs i (Float64.fin (z : ℚ)) =
      Float64.fin ((z + bucketCount rs i : Int) : ℚ) := by
  intro rs
  induction rs with
  | nil =>
    intro z _
    simp [bucketFold_nil, bucketCount]
  | cons r rest ih =>
    intro z hb
    simp only [List.map_cons, List.sum_cons] at hb
    have hrest := abs_sum_nonneg rest
    have hz := abs_nonneg z
    have hr := abs_nonneg r.result
    rw [bucketFold_cons, bucketCount_cons]
    cases hin : inBucket i r
    · simp only [Bool.false_eq_true, if_false, zero_add]
      exact ih z (by omega)
    · simp only [if_true]
      have hsum := abs_add z r.result
      have hstep : Float64.arith.add (Float64.fin (z : ℚ)) (Float64.ofInt r.result) =
          Float64.fin ((z + r.result : Int) : ℚ) := by
        rw [ofInt_exact r.result (by omega)]
        exact add_int z r.result (by omega)
      rw [hstep, ih (z + r.result) (by omega), Int.add_assoc]

theorem bucketFold_perm {α : Type} (ar : FloatArith α)
    (hcomm : ∀ a x y, ar.add (ar.add a x) y = ar.add (ar.add a y) x) (f : Rec α → α)
    {rs1 rs2 : List (Rec α)} (h : rs1.Perm rs2) (i : Nat) (a : α) :
    bucketFold ar f rs1 i a = bucketFold ar f rs2 i a := by
  unfold bucketFold
  exact (h.filter _).foldl_eq' (fun x _ y _ z => hcomm z (f x) (f y)) a

theorem exactArith_comm (a x y : ℚ) :
    exactArith.add (exactArith.add a x) y = exactArith.add (exactArith.add a y) x := by
  simp only [exactArith]
  ring

/-- C20, as amended: for two record sequences that are permutations of each
other the aggregator, which adds in `float64`, yields identical `totalCount`
slices whenever the absolute values of the results sum to at most `2^53`: each
bucket then holds the exact sum of its results.  In exact arithmetic the
`totalTime` and `totalCount` slices are identical without any bound. -/
theorem C20_aggregate_perm (rs1 rs2 : List (Rec Float64)) (h : rs1.Perm rs2)
    (hb : (rs1.map (fun r => |r.result|)).sum ≤ 2 ^ 53)
    (qs1 qs2 : List (Rec ℚ)) (hq : qs1.Perm qs2) :
    (∃ t1 t2, aggregate Float64.arith (Totals.init Float64.arith) rs1 = some t1 ∧
      aggregate Float64.arith (Totals.init Float64.arith) rs2 = some t2 ∧
      t1.totalCount = t2.totalCount ∧
      t1.totalCount = (List.range (SizeGroupSplits + 1)).map
        (fun i => Float64.fin ((bucketCount rs1 i : Int) : ℚ))) ∧
    aggregate exactArith (Totals.init exactArith) qs1 =
      aggregate exactArith (Totals.init exactArith) qs2 := by
  have hb2 : (rs2.map (fun r => |r.result|)).sum ≤ 2 ^ 53 := by
    rw [← (h.map (fun r => |r.result|)).sum_eq]
    exact hb
  have hc1 : ∀ i, bucketFold Float64.arith (fun r => Float64.arith.ofInt r.result) rs1 i
      Float64.arith.zero = Float64.fin ((bucketCount rs1 i : Int) : ℚ) := by
    intro i
    have := count_fold_exact i rs1 0 (by simpa using hb)
    simpa [Float64.arith] using this
  have hc2 : ∀ i, bucketFold Float64.arith (fun r => Float64.arith.ofInt r.result) rs2 i
      Float64.arith.zero = Float64.fin ((bucketCount rs1 i : Int) : ℚ) := by
    intro i
    have := count_fold_exact i rs2 0 (by simpa using hb2)
    rw [bucketCount_perm h i]
    simpa [Float64.arith] using this
  refine ⟨⟨_, _, aggregate_init Float64.arith rs1, aggregate_init Float64.arith rs2, ?_, ?_⟩, ?_⟩
  · simp only [hc1, hc2]
  · simp only [hc1]
  · rw [aggregate_init, aggregate_init]
    simp only [bucketFold_perm exactArith exactArith_comm _ hq]

theorem add_fin (a b : ℚ) :
    Float64.add (Float64.fin a) (Float64.fin b) = Float64.round (a + b) := rfl

theorem aggregate_three_small {α : Type} (ar : FloatArith α) (k1 k2 k3 : String)
    (n1 n2 n3 : Int) (e1 e2 e3 : α) :
    (aggregate ar (Totals.init ar)
        [⟨k1, [], n1, e1⟩, ⟨k2, [], n2, e2⟩, ⟨k3, [], n3, e3⟩]).map (fun t => t.totalCount) =
      some [ar.add (ar.add (ar.add ar.zero (ar.ofInt n1)) (ar.ofInt n2)) (ar.ofInt n3),
        ar.add (ar.add (ar.add ar.zero (ar.ofInt n1)) (ar.ofInt n2)) (ar.ofInt n3),
        ar.zero, ar.zero] := by
  have hg : sizeGroup 0 = 1 := by decide
  have hr : List.range (SizeGroupSplits + 1) = [0, 1, 2, 3] := by decide
  rw [aggregate_init, hr]
  simp [bucketFold, inBucket, hg]

theorem ofInt_big : Float64.ofInt (2 ^ 53) = Float64.fin (2 ^ 53) := by
  have := ofInt_exact (2 ^ 53) (by decide)
  norm_num at this
  exact this

theorem ofInt_one : Float64.ofInt 1 = Float64.fin 1 := by
  have := ofInt_exact 1 (by decide)
  norm_num at this
  exact this

theorem round_zero_add_one : Float64.round (0 + 1) = Float64.fin 1 := by
  have := round_intCast 1 (by decide)
  norm_num at this ⊢
  exact this

/-- Counterexample to C20 as stated: the results `2^53, 1, 1` and their
permutation `1, 1, 2^53` give different `totalCount` slices, because
`2^53 + 1` rounds back to `2^53` while `2 + 2^53` is exact. -/
theorem C20_rounding_breaks_order :
    [bigRec, oneRec "b", oneRec "c"].Perm [oneRec "b", oneRec "c", bigRec] ∧
    (aggregate Float64.arith (Totals.init Float64.arith)
        [bigRec, oneRec "b", oneRec "c"]).map (fun t => t.totalCount) =
      some [Float64.fin (2 ^ 53), Float64.fin (2 ^ 53), Float64.fin 0, Float64.fin 0] ∧
    (aggregate Float64.arith (Totals.init Float64.arith)
        [oneRec "b", oneRec "c", bigRec]).map (fun t => t.totalCount) =
      some [Float64.fin (2 ^ 53 + 2), Float64.fin (2 ^ 53 + 2), Float64.fin 0,
        Float64.fin 0] ∧
    Float64.fin (2 ^ 53) ≠ Float64.fin (2 ^ 53 + 2) := by
  have r0 : Float64.round (0 + 2 ^ 53) = Float64.fin (2 ^ 53) := by
    have := round_intCast (2 ^ 53) (by decide)
    norm_num at this ⊢
    exact this
  have r2 : Float64.round (1 + 1) = Float64.fin 2 := by
    have := round_intCast 2 (by decide)
    norm_num at this ⊢
    exact this
  have r3 : Float64.round (2 + 2 ^ 53) = Float64.fin (2 ^ 53 + 2) := by
    have := round_dyadic (2 ^ 52 + 1) 1 (by decide) (by decide) (by norm_num)
    norm_num at this ⊢
    exact this
  refine ⟨@List.perm_append_comm _ [bigRec] [oneRec "b", oneRec "c"], ?_, ?_, ?_⟩
  · unfold bigRec oneRec
    rw [aggregate_three_small]
    simp only [Float64.arith]
    rw [ofInt_big, ofInt_one, add_fin, r0, add_fin, round_tie_53, add_fin, round_tie_53]
  · unfold bigRec oneRec
    rw [aggregate_three_small]
    simp only [Float64.arith]
    rw [ofInt_big, ofInt_one, add_fin, round_zero_add_one, add_fin, r2, add_fin, r3]
  · intro hc
    have := Float64.fin.inj hc
    norm_num at this

/-- Witness of C20 on two records in both orders. -/
theorem C20_aggregate_perm_witness :
    (∃ t1 t2,
      aggregate Float64.arith (Totals.init Float64.arith)
        [⟨"x", ["a"], 2, Float64.fin (1 / 2)⟩, ⟨"y", [], 3, Float64.fin (1 / 4)⟩] = some t1 ∧
      aggregate Float64.arith (Totals.init Float64.arith)
        [⟨"y", [], 3, Float64.fin (1 / 4)⟩, ⟨"x", ["a"], 2, Float64.fin (1 / 2)⟩] = some t2 ∧
      t1.totalCount = t2.totalCount ∧
      t1.totalCount = (List.range (SizeGroupSplits + 1)).map
        (fun i => Float64.fin ((bucketCount
          [(⟨"x", ["a"], 2, Float64.fin (1 / 2)⟩ : Rec Float64),
            ⟨"y", [], 3, Float64.fin (1 / 4)⟩] i : Int) : ℚ))) ∧
    aggregate exactArith (Totals.init exactArith)
        [⟨"x", ["a"], 2, 1 / 2⟩, ⟨"y", [], 3, 1 / 4⟩] =
      aggregate exactArith (Totals.init exactArith)
        [⟨"y", [], 3, 1 / 4⟩, ⟨"x", ["a"], 2, 1 / 2⟩] :=
  C20_aggregate_perm _ _ (List.Perm.swap _ _ _) (by decide) _ _ (List.Perm.swap _ _ _)

/-! ## Runs of `parallelCollect` -/

theorem aggregate_append {α : Type} (ar : FloatArith α) (rs : List (Rec α)) (r : Rec α) :
    ∀ (t : Totals α),
    aggregate ar t (rs ++ [r]) = (aggregate ar t rs).bind (fun t1 => aggStep ar t1 r) := by
  induction rs with
  | nil =>
    intro t
    simp only [List.nil_append, aggregate, Option.some_bind]
    cases aggStep ar t r <;> rfl
  | cons x rest ih =>
    intro t
    simp only [List.cons_append, aggregate]
    cases aggStep ar t x with
    | none => rfl
    | some t1 => exact ih t1

theorem start_inv (rt : Runtime) (dataset : GoMap (List String)) :
    (Pipe.start rt dataset).Inv :=
  ⟨⟨[], rfl⟩, fun _ h => by simp [Pipe.start] at h⟩

theorem step_inv (eachFunc : String → List String → Int) (p p1 : Pipe) (a : Action)
    (h : Pipe.step eachFunc p a = some p1) (hinv : p.Inv) : p1.Inv := by
  obtain ⟨⟨rs, hrs⟩, hret⟩ := hinv
  cases a with
  | submit =>
    simp only [Pipe.step] at h
    split at h
    · rename_i hout _ _
      cases h
      exact ⟨⟨rs, hrs⟩, fun t ht => by simp [hout] at ht⟩
    · exact absurd h (by simp)
  | closeIn =>
    simp only [Pipe.step] at h
    split at h
    · rename_i hout _ _
      cases h
      exact ⟨⟨rs, hrs⟩, fun t ht => by simp [hout] at ht⟩
    · exact absurd h (by simp)
  | work i elap =>
    simp only [Pipe.step] at h
    split at h
    · rename_i hout _
      cases h
      exact ⟨⟨rs, hrs⟩, fun t ht => by simp [hout] at ht⟩
    · exact absurd h (by simp)
  | deliver i =>
    simp only [Pipe.step] at h
    split at h
    · rename_i rx hout _ _
      split at h
      · rename_i t1 hstep
        cases h
        refine ⟨⟨rs ++ [rx], ?_⟩, fun t ht => by simp [hout] at ht⟩
        rw [aggregate_append, hrs]
        exact hstep
      · cases h
        exact ⟨⟨rs, hrs⟩, fun t ht => by simp at ht⟩
    · exact absurd h (by simp)
  | closeOut =>
    simp only [Pipe.step] at h
    split at h
    · rename_i hout _ _ _
      cases h
      exact ⟨⟨rs, hrs⟩, fun t ht => by simp [hout] at ht⟩
    · exact absurd h (by simp)
  | sendOnClosed i =>
    simp only [Pipe.step] at h
    split at h
    · cases h
      exact ⟨⟨rs, hrs⟩, fun t ht => by simp at ht⟩
    · exact absurd h (by simp)
  | finish =>
    simp only [Pipe.step] at h
    split at h
    · cases h
      exact ⟨⟨rs, hrs⟩, fun t ht => by simpa using ht.symm⟩
    · exact absurd h (by simp)

theorem run_inv (eachFunc : String → List String → Int) (sched : List Action) :
    ∀ (p p1 : Pipe), Pipe.run eachFunc p sched = some p1 → p.Inv → p1.Inv := by
  induction sched with
  | nil =>
    intro p p1 h hinv
    simp only [Pipe.run, Option.some.injEq] at h
    exact h ▸ hinv
  | cons a rest ih =>
    intro p p1 h hinv
    simp only [Pipe.run] at h
    split at h
    · exact absurd h (by simp)
    · rename_i p2 hstep
      exact ih p2 p1 h (step_inv eachFunc p p2 a hstep hinv)

/-- C13: on the dataset with the single key `x` and an `eachFunc` that returns 1,
`parallelCollect` has a run in which the dispatcher closes `outchan` after the
worker's `wg.Done()` and before its send: the caller then gets all-zero slices, so
`totalCount[0]` is 0 and not 1, or the late send panics; when the send comes
first the slices are `[1, 1, 0, 0]`. -/
theorem C13_close_before_send :
    (Pipe.run (fun _ _ => 1) (Pipe.start Runtime.simple [("x", ["a"])])
        [Action.submit, Action.closeIn, Action.work 0 (Float64.fin 1), Action.closeOut,
          Action.finish]).map
      (fun p => p.outcome) =
      some (Outcome.returned
        ⟨[Float64.fin 0, Float64.fin 0, Float64.fin 0, Float64.fin 0],
         [Float64.fin 0, Float64.fin 0, Float64.fin 0, Float64.fin 0]⟩) ∧
    (Pipe.run (fun _ _ => 1) (Pipe.start Runtime.simple [("x", ["a"])])
        [Action.submit, Action.closeIn, Action.work 0 (Float64.fin 1), Action.closeOut,
          Action.sendOnClosed 0]).map
      (fun p => p.outcome) = some Outcome.crashed ∧
    (Pipe.run (fun _ _ => 1) (Pipe.start Runtime.simple [("x", ["a"])])
        [Action.submit, Action.closeIn, Action.work 0 (Float64.fin 1), Action.deliver 0,
          Action.closeOut, Action.finish]).map
      (fun p => p.outcome) =
      some (Outcome.returned
        ⟨[Float64.fin 1, Float64.fin 1, Float64.fin 0, Float64.fin 0],
         [Float64.fin 1, Float64.fin 1, Float64.fin 0, Float64.fin 0]⟩) := by
  have hg : sizeGroup 1 = 1 := by decide
  have hr : Float64.round 1 = Float64.fin 1 := by
    have := round_intCast 1 (by decide)
    norm_num at this ⊢
    exact this
  refine ⟨?_, ?_, ?_⟩
  · simp [Pipe.run, Pipe.step, Pipe.start, Runtime.simple, Totals.init, SizeGroupSplits,
      List.replicate, Float64.arith]
  · simp [Pipe.run, Pipe.step, Pipe.start, Runtime.simple, Totals.init, SizeGroupSplits,
      List.replicate, Float64.arith]
  · simp [Pipe.run, Pipe.step, Pipe.start, Runtime.simple, aggStep_four, Totals.init,
      SizeGroupSplits, List.replicate, hg, inBucket, Float64.arith, ofInt_one, add_fin, hr]

/-! ## `FoldAll` -/

theorem find_range (rt : Runtime) (hrt : rt.Lawful) {ν : Type} (m : GoMap ν)
    (hnd : (GoMap.keys m).Nodup) (k : String) :
    GoMap.find (rt.range m) k = GoMap.find m k := by
  cases hf : GoMap.find m k with
  | none =>
    apply find_eq_none_of_not_mem
    intro hmem
    have hk : k ∈ GoMap.keys m := (range_keys_perm rt hrt m).mem_iff.mp hmem
    have := (find_isSome_iff k m).mpr hk
    rw [hf] at this
    exact absurd this (by simp)
  | some v =>
    exact find_of_mem k v _ (range_keys_nodup rt hrt m hnd)
      ((hrt.range_perm m).mem_iff.mpr (mem_of_find k v m hf))

/-- C11: `FoldAll(bitsize)` rebuilds the folded mapping in full: its keys are the
keys of the sketch mapping, `folds[k]` is `FoldFilterWithSize(bf[k], bitsize)`,
`foldbits` is `bitsize`, the result does not depend on the previous folded mapping
or fold size, and `sz` and `bf` are unchanged. -/
theorem C11_foldAll_rebuilds (rt : Runtime) (hrt : rt.Lawful) (s : BloomSet)
    (hbf : (GoMap.keys s.bf).Nodup) (bitsize : Nat) :
    (BloomSet.FoldAll rt s bitsize).foldbits = bitsize ∧
    (BloomSet.FoldAll rt s bitsize).sz = s.sz ∧
    (BloomSet.FoldAll rt s bitsize).bf = s.bf ∧
    (GoMap.keys (BloomSet.FoldAll rt s bitsize).folds).Nodup ∧
    (∀ k, k ∈ GoMap.keys (BloomSet.FoldAll rt s bitsize).folds ↔ k ∈ GoMap.keys s.bf) ∧
    (∀ k, GoMap.find (BloomSet.FoldAll rt s bitsize).folds k =
      (GoMap.find s.bf k).map (fun bf => FoldFilterWithSize bf bitsize)) ∧
    (∀ (oldFolds : GoMap foldedBloomFilter) (oldBits : Nat),
      BloomSet.FoldAll rt { s with folds := oldFolds, foldbits := oldBits } bitsize =
        BloomSet.FoldAll rt s bitsize) := by
  have hfolds := foldAll_folds rt hrt s hbf bitsize
  have hkeys : GoMap.keys (BloomSet.FoldAll rt s bitsize).folds = GoMap.keys (rt.range s.bf) := by
    rw [hfolds, keys_map_val (fun bf => FoldFilterWithSize bf bitsize)]
  refine ⟨rfl, rfl, rfl, ?_, ?_, ?_, fun _ _ => rfl⟩
  · rw [hkeys]
    exact range_keys_nodup rt hrt s.bf hbf
  · intro k
    rw [hkeys]
    exact (range_keys_perm rt hrt s.bf).mem_iff
  · intro k
    rw [hfolds, find_map_val (fun bf => FoldFilterWithSize bf bitsize), find_range rt hrt s.bf hbf]

/-- Witness of C11 on the sample collection, whose stale entry `old` is dropped. -/
theorem C11_foldAll_rebuilds_witness :
    (GoMap.keys sampleSet.bf).Nodup ∧
    (BloomSet.FoldAll Runtime.simple sampleSet 64).foldbits = 64 ∧
    (∀ k, k ∈ GoMap.keys (BloomSet.FoldAll Runtime.simple sampleSet 64).folds ↔
      k ∈ GoMap.keys sampleSet.bf) ∧
    (∀ k, GoMap.find (BloomSet.FoldAll Runtime.simple sampleSet 64).folds k =
      (GoMap.find sampleSet.bf k).map (fun bf => FoldFilterWithSize bf 64)) :=
  ⟨by decide,
    (C11_foldAll_rebuilds Runtime.simple simple_lawful sampleSet (by decide) 64).1,
    (C11_foldAll_rebuilds Runtime.simple simple_lawful sampleSet (by decide) 64).2.2.2.2.1,
    (C11_foldAll_rebuilds Runtime.simple simple_lawful sampleSet (by decide) 64).2.2.2.2.2.1⟩

/-! ## Word count of a fold -/

theorem ceilDiv_le_iff (t k : Nat) : ceilDiv t 64 ≤ k ↔ t ≤ 64 * k := by
  unfold ceilDiv
  omega

/-- C14, as amended: for every source sketch and every target size the fold has
exactly `1 + targetBits / 64` words, which is `ceil(targetBits / 64)` when
`targetBits` is not a multiple of 64 and one word more when it is. -/
theorem C14_fold_word_count (orig : BloomFilter) (targetBits : Nat) :
    (FoldFilterWithSize orig targetBits).parts.length = 1 + targetBits / 64 ∧
    (FoldFilterWithSize orig targetBits).parts.length =
      (if targetBits % 64 = 0 then ceilDiv targetBits 64 + 1 else ceilDiv targetBits 64) ∧
    (∀ k, ceilDiv targetBits 64 ≤ k ↔ targetBits ≤ 64 * k) := by
  refine ⟨fold_length orig targetBits, ?_, ceilDiv_le_iff targetBits⟩
  rw [fold_length]
  unfold ceilDiv
  split <;> omega

/-- Counterexample to C14 as stated: a fold to 64 bits has two words, while
`ceil(64 / 64)` is 1. -/
theorem C14_multiple_of_64 :
    (FoldFilterWithSize ⟨128, 10, 1, [1, 2]⟩ 64).parts.length = 2 ∧ ceilDiv 64 64 = 1 ∧
    (FoldFilterWithSize ⟨128, 10, 1, [1, 2]⟩ 64).parts.length ≠ ceilDiv 64 64 := by
  decide

/-! ## A fold target of zero -/

theorem orAtResidue_one (src : List Nat) :
    orAtResidue src 1 0 = src.foldl (fun acc w => acc ||| w) 0 := by
  unfold orAtResidue
  have hf : src.enum.filter (fun jp => decide (jp.1 % 1 = 0)) = src.enum := by
    apply List.filter_eq_self.mpr
    intro a _
    simp [Nat.mod_one]
  rw [hf, List.enum_map_snd]

theorem fold_zero (orig : BloomFilter) :
    FoldFilterWithSize orig 0 = ⟨[orig.parts.foldl (fun acc w => acc ||| w) 0]⟩ := by
  have h := fold_parts_eq orig 0
  simp only [Nat.zero_div, Nat.add_zero] at h
  have hr : List.range 1 = [0] := by decide
  rw [hr, List.map_cons, List.map_nil, orAtResidue_one] at h
  cases hfo : FoldFilterWithSize orig 0 with
  | mk parts =>
    rw [hfo] at h
    simp only at h
    rw [h]

/-- C15, as amended: a fold target of 0 is not rejected: `FoldFilterWithSize(source,
0)` returns the one-word sketch that holds the OR of all source words, and
`FoldAll(0)` installs such a one-word fold for every key and sets `foldbits` to 0. -/
theorem C15_fold_zero_accepted (orig : BloomFilter) (rt : Runtime) (s : BloomSet) :
    FoldFilterWithSize orig 0 = ⟨[orig.parts.foldl (fun acc w => acc ||| w) 0]⟩ ∧
    BloomSet.FoldAll rt s 0 =
      { s with
        foldbits := 0
        folds := (rt.range s.bf).foldl
          (fun folds e =>
            GoMap.store folds e.1 ⟨[e.2.parts.foldl (fun acc w => acc ||| w) 0]⟩) [] } := by
  refine ⟨fold_zero orig, ?_⟩
  unfold BloomSet.FoldAll
  simp only [fold_zero]

/-- Counterexample to C15 as stated: folding the words `[1, 2]` to 0 bits returns
the sketch `[3]`, and `FoldAll(0)` on the sample collection installs the one-word
folds of its two sketches. -/
theorem C15_zero_target_returns :
    FoldFilterWithSize ⟨128, 10, 2, [1, 2]⟩ 0 = ⟨[3]⟩ ∧
    (BloomSet.FoldAll Runtime.simple sampleSet 0).folds = [("x", ⟨[1]⟩), ("y", ⟨[1]⟩)] := by
  decide

/-! ## No size mismatch after `FoldAll` -/

theorem mem_store {ν : Type} (k : String) (v : ν) (e : String × ν) : ∀ (m : GoMap ν),
    e ∈ GoMap.store m k v → e ∈ m ∨ e = (k, v)
  | [], h => by
    simp only [GoMap.store, List.mem_singleton] at h
    exact Or.inr h
  | (k1, v1) :: rest, h => by
    by_cases hk : k1 = k
    · simp only [GoMap.store, hk, if_true, List.mem_cons] at h
      rcases h with h | h
      · exact Or.inr h
      · exact Or.inl (List.mem_cons_of_mem _ h)
    · simp only [GoMap.store, hk, if_false, List.mem_cons] at h
      rcases h with h | h
      · exact Or.inl (h ▸ List.mem_cons_self _ _)
      · rcases mem_store k v e rest h with h1 | h1
        · exact Or.inl (List.mem_cons_of_mem _ h1)
        · exact Or.inr h1

theorem foldl_store_values {ν μ : Type} (f : ν → μ) (P : μ → Prop) (hP : ∀ v, P (f v)) :
    ∀ (l : GoMap ν) (acc : GoMap μ), (∀ e ∈ acc, P e.2) →
      ∀ e ∈ l.foldl (fun m e => GoMap.store m e.1 (f e.2)) acc, P e.2 := by
  intro l
  induction l with
  | nil => intro acc hacc e he; exact hacc e he
  | cons x rest ih =>
    intro acc hacc e he
    rw [List.foldl_cons] at he
    refine ih (GoMap.store acc x.1 (f x.2)) ?_ e he
    intro e1 he1
    rcases mem_store x.1 (f x.2) e1 acc he1 with h | h
    · exact hacc e1 h
    · rw [h]
      exact hP x.2

theorem foldAll_lengths (rt : Runtime) (s : BloomSet) (bitsize : Nat) :
    ∀ e ∈ (BloomSet.FoldAll rt s bitsize).folds, e.2.parts.length = 1 + bitsize / 64 := by
  unfold BloomSet.FoldAll
  simp only
  exact foldl_store_values (fun bf => FoldFilterWithSize bf bitsize)
    (fun fb => fb.parts.length = 1 + bitsize / 64) (fun bf => fold_length bf bitsize)
    (rt.range s.bf) [] (by simp)

theorem foldedLoop_ok (fq : foldedBloomFilter) :
    ∀ (l : List (String × foldedBloomFilter)) (st : MatchState),
      (∀ e ∈ l, e.2.parts.length = fq.parts.length) →
      ∃ st1, foldedLoop fq l st = Except.ok st1 := by
  intro l
  induction l with
  | nil => intro st _; exact ⟨st, rfl⟩
  | cons e rest ih =>
    intro st hlen
    have he := hlen e (List.mem_cons_self _ _)
    rw [foldedLoop]
    unfold foldedStep
    rw [similarity_simValue e.2 fq he.symm]
    simp only
    exact ih _ (fun e1 he1 => hlen e1 (List.mem_cons_of_mem _ he1))

theorem rankTopN_not_mismatch (rt : Runtime) (st : MatchState) (topn : Int) :
    rankTopN rt st topn ≠ Except.error "cannot compare" := by
  by_cases h : 0 ≤ topn
  · rw [rankTopN_nonneg rt st topn h]
    exact fun hc => Except.noConfusion hc
  · rw [rankTopN_neg rt st topn (by omega)]
    intro hc
    have := Except.error.inj hc
    exact absurd this (by decide)

/-- C17: after `FoldAll(b)` every stored folded sketch and the folded query of
`FoldedBestMatches` have `1 + b / 64` words, so the loop of `FoldedBestMatches`
completes for every query list and the call never ends in the size-mismatch
panic of `Similarity`. -/
theorem C17_no_size_mismatch (rt : Runtime) (hrt : rt.Lawful) (ops : SketchOps)
    (s : BloomSet) (b : Nat) (data : List String) (topn : Int) :
    (∀ e ∈ (BloomSet.FoldAll rt s b).folds, e.2.parts.length = 1 + b / 64) ∧
    (FoldFilterWithSize (newSketch ops (BloomSet.FoldAll rt s b).sz data)
      (BloomSet.FoldAll rt s b).foldbits).parts.length = 1 + b / 64 ∧
    (∃ st,
      foldedLoop
        (FoldFilterWithSize (newSketch ops (BloomSet.FoldAll rt s b).sz data)
          (BloomSet.FoldAll rt s b).foldbits)
        (rt.range (BloomSet.FoldAll rt s b).folds) MatchState.init = Except.ok st ∧
      BloomSet.FoldedBestMatches rt ops (BloomSet.FoldAll rt s b) data topn =
        rankTopN rt st topn) ∧
    BloomSet.FoldedBestMatches rt ops (BloomSet.FoldAll rt s b) data topn ≠
      Except.error "cannot compare" := by
  have hlen := foldAll_lengths rt s b
  have hq : (FoldFilterWithSize (newSketch ops (BloomSet.FoldAll rt s b).sz data)
      (BloomSet.FoldAll rt s b).foldbits).parts.length = 1 + b / 64 := fold_length _ b
  obtain ⟨st, hst⟩ := foldedLoop_ok
    (FoldFilterWithSize (newSketch ops (BloomSet.FoldAll rt s b).sz data)
      (BloomSet.FoldAll rt s b).foldbits)
    (rt.range (BloomSet.FoldAll rt s b).folds) MatchState.init
    (fun e he => by
      rw [hq]
      exact hlen e ((hrt.range_perm _).mem_iff.mp he))
  have hres : BloomSet.FoldedBestMatches rt ops (BloomSet.FoldAll rt s b) data topn =
      rankTopN rt st topn := by
    unfold BloomSet.FoldedBestMatches
    simp only [hst]
  refine ⟨hlen, hq, ⟨st, hst, hres⟩, ?_⟩
  rw [hres]
  exact rankTopN_not_mismatch rt st topn

/-- Witness of C17 on the sample collection folded to 64 bits. -/
theorem C17_no_size_mismatch_witness :
    BloomSet.FoldedBestMatches Runtime.simple toyOps
        (BloomSet.FoldAll Runtime.simple sampleSet 64) ["a"] 1 ≠
      Except.error "cannot compare" :=
  (C17_no_size_mismatch Runtime.simple simple_lawful toyOps sampleSet 64 ["a"] 1).2.2.2

/-! ## Repeated items in a dataset entry -/

/-- C18: on the entry `[a, a]` and the query `[a, a]` the exact `BestMatches`
counts the repeated item twice: the counters end at intersection 2 and union 1,
and the score it stores and returns is 2, which is above 1. -/
theorem C18_repeated_items_score :
    countLoop (querySet ["a", "a"]) ["a", "a"] = (2, 1) ∧
    exactScore (querySet ["a", "a"]) ["a", "a"] = F64.fin 2 ∧
    BestMatches Runtime.simple [("k", ["a", "a"])] ["a", "a"] 1 =
      Except.ok (["k"], [F64.fin 2], 1) ∧
    F64.ge (F64.fin 1) (F64.fin 2) = false := by
  have hc : countLoop (querySet ["a", "a"]) ["a", "a"] = (2, 1) := by decide
  have hs : exactScore (querySet ["a", "a"]) ["a", "a"] = F64.fin 2 := by
    simp only [exactScore, hc, F64.divNat]
    norm_num
  have hh : exactHit (querySet ["a", "a"]) ["a", "a"] = true := by
    simp only [exactHit, hc]
    norm_num
  refine ⟨hc, hs, ?_, ?_⟩
  · unfold BestMatches
    simp only
    rw [rankTopN_nonneg _ _ 1 (by decide),
      exactLoop_init _ (Runtime.simple.range [("k", ["a", "a"])]) (by decide)]
    simp [Runtime.simple, GoMap.keys, GoMap.index, GoMap.find, hs, hh]
  · rw [ge_fin]
    simp only [decide_eq_false_iff_not, not_le]
    norm_num

/-! ## The two exact baselines -/

theorem fold2_foldl (q : GoMap Unit) (l : List (String × List String)) : ∀ (c : Nat),
    l.foldl
      (fun comps e =>
        if (decide (0 < (countLoop q e.2).2) &&
            F64.ge (F64.divNat (countLoop q e.2).1 (countLoop q e.2).2) CompThreshold) = true
        then comps + 1 else comps) c =
    c + l.countP (fun e => exactHit q e.2) := by
  induction l with
  | nil => intro c; simp
  | cons e rest ih =>
    intro c
    rw [List.foldl_cons, ih, List.countP_cons, hit_eq]
    unfold exactHit
    split <;> simp_all
    omega

theorem fold2_eq_countP (rt : Runtime) (hrt : rt.Lawful) (dataset : GoMap (List String))
    (data : List String) (topn : Int) :
    Fold2.BestMatches rt dataset data topn =
      dataset.countP (fun e => exactHit (querySet data) e.2) := by
  unfold Fold2.BestMatches
  simp only
  rw [fold2_foldl, Nat.zero_add, (hrt.range_perm dataset).countP_eq]

/-- C19, as amended: for every `topn >= 0` the integer returned by the
`BestMatches` of `cmd/fold2` is the `comps` result of the `BestMatches` of
`cmd/fold`; the former never reads `topn`. -/
theorem C19_baselines_agree (rt : Runtime) (hrt : rt.Lawful)
    (dataset : GoMap (List String)) (hkeys : (GoMap.keys dataset).Nodup)
    (data : List String) (topn : Int) (htop : 0 ≤ topn) :
    (∃ keys scores, BestMatches rt dataset data topn =
      Except.ok (keys, scores, Fold2.BestMatches rt dataset data topn)) ∧
    (∀ topn2 : Int, Fold2.BestMatches rt dataset data topn2 =
      Fold2.BestMatches rt dataset data topn) := by
  constructor
  · rw [fold2_eq_countP rt hrt]
    unfold BestMatches
    simp only
    rw [rankTopN_nonneg rt _ topn htop,
      exactLoop_init _ _ (range_keys_nodup rt hrt dataset hkeys),
      (hrt.range_perm dataset).countP_eq]
    exact ⟨_, _, rfl⟩
  · intro topn2
    rfl

/-- Witness of C19 on the sample dataset with the query `[a, b, c]` and `topn = 10`. -/
theorem C19_baselines_agree_witness :
    (∃ keys scores, BestMatches Runtime.simple sampleDataset ["a", "b", "c"] 10 =
      Except.ok (keys, scores,
        Fold2.BestMatches Runtime.simple sampleDataset ["a", "b", "c"] 10)) ∧
    (∀ topn2 : Int, Fold2.BestMatches Runtime.simple sampleDataset ["a", "b", "c"] topn2 =
      Fold2.BestMatches Runtime.simple sampleDataset ["a", "b", "c"] 10) :=
  C19_baselines_agree Runtime.simple simple_lawful sampleDataset sample_keys_nodup
    ["a", "b", "c"] 10 (by decide)

/-- Counterexample to C19 as stated for every `topn`: with `topn = -1` the
`BestMatches` of `cmd/fold` panics at `keys[:topn]` and has no third result, while
the one of `cmd/fold2` returns 1. -/
theorem C19_negative_topn_diverges :
    BestMatches Runtime.simple sampleDataset ["a", "b", "c"] (-1) =
      Except.error "slice bounds out of range" ∧
    Fold2.BestMatches Runtime.simple sampleDataset ["a", "b", "c"] (-1) = 1 := by
  constructor
  · unfold BestMatches
    exact rankTopN_neg _ _ (-1) (by decide)
  · rw [fold2_eq_countP Runtime.simple simple_lawful]
    have h1 : countLoop (querySet ["a", "b", "c"]) ["a", "b", "c"] = (3, 3) := by decide
    have h2 : countLoop (querySet ["a", "b", "c"]) ["b", "c", "d"] = (2, 4) := by decide
    have h3 : countLoop (querySet ["a", "b", "c"]) ["d"] = (0, 4) := by decide
    simp only [sampleDataset, List.countP_cons, List.countP_nil, exactHit, h1, h2, h3]
    norm_num

/-! ## Auto-sized folding -/

theorem fold_congr_div (orig : BloomFilter) (a b : Nat) (h : a / 64 = b / 64) :
    FoldFilterWithSize orig a = FoldFilterWithSize orig b := by
  unfold FoldFilterWithSize
  simp only [h]

theorem nextPowerOfTwo_ge (x : ℚ) : x ≤ (nextPowerOfTwo ⌈x⌉₊ : ℚ) := by
  have h1 : x ≤ (⌈x⌉₊ : ℚ) := Nat.le_ceil x
  have h2 : ⌈x⌉₊ ≤ nextPowerOfTwo ⌈x⌉₊ := Nat.le_pow_clog (by decide) _
  exact le_trans h1 (by exact_mod_cast h2)

theorem nextPowerOfTwo_least (x : ℚ) (e : Nat) (h : x ≤ ((2 ^ e : Nat) : ℚ)) :
    nextPowerOfTwo ⌈x⌉₊ ≤ 2 ^ e := by
  have h1 : ⌈x⌉₊ ≤ 2 ^ e := Nat.ceil_le.mpr h
  have h2 : Nat.clog 2 ⌈x⌉₊ ≤ e := (Nat.le_pow_iff_clog_le (by decide)).mp h1
  exact Nat.pow_le_pow_right (by decide) h2

theorem nextPowerOfTwo_lt_one (x : ℚ) (h : x < 1) : nextPowerOfTwo ⌈x⌉₊ = 1 := by
  have hc : ⌈x⌉₊ ≤ 1 := Nat.ceil_le.mpr (by simpa using h.le)
  unfold nextPowerOfTwo
  rw [Nat.clog_of_right_le_one hc, pow_zero]

theorem clog_target (x : ℚ) (h63 : x ≤ (2 : ℚ) ^ (63 : Nat)) :
    (2 : ℚ) ^ Int.clog 2 x < (2 : ℚ) ^ (64 : Nat) ∧
    ⌊(2 : ℚ) ^ Int.clog 2 x⌋.toNat / 64 = nextPowerOfTwo ⌈x⌉₊ / 64 := by
  by_cases h1 : 1 ≤ x
  · rw [Int.clog_of_one_le_right 2 h1, zpow_natCast]
    have hcast : ((2 : ℚ) ^ Nat.clog 2 ⌈x⌉₊) = ((nextPowerOfTwo ⌈x⌉₊ : Nat) : ℚ) := by
      unfold nextPowerOfTwo
      push_cast
      rfl
    rw [hcast]
    have hle := nextPowerOfTwo_least x 63 (by exact_mod_cast h63)
    constructor
    · have : ((nextPowerOfTwo ⌈x⌉₊ : Nat) : ℚ) ≤ ((2 ^ 63 : Nat) : ℚ) := by exact_mod_cast hle
      refine lt_of_le_of_lt this ?_
      norm_num
    · rw [Int.floor_natCast, Int.toNat_natCast]
  · have hlt : x < 1 := not_le.mp h1
    rw [Int.clog_of_right_le_one 2 hlt.le, zpow_neg, zpow_natCast, nextPowerOfTwo_lt_one x hlt]
    have hp1 : (1 : ℚ) ≤ (2 : ℚ) ^ Nat.log 2 ⌊x⁻¹⌋₊ := one_le_pow₀ (by norm_num)
    have hinv : ((2 : ℚ) ^ Nat.log 2 ⌊x⁻¹⌋₊)⁻¹ ≤ 1 := inv_le_one_of_one_le₀ hp1
    have hpos : (0 : ℚ) < ((2 : ℚ) ^ Nat.log 2 ⌊x⁻¹⌋₊)⁻¹ := by positivity
    constructor
    · exact lt_of_le_of_lt hinv (by norm_num)
    · have hf : ⌊((2 : ℚ) ^ Nat.log 2 ⌊x⁻¹⌋₊)⁻¹⌋ ≤ 1 := by
        have := Int.floor_mono hinv
        simpa using this
      have hf0 : 0 ≤ ⌊((2 : ℚ) ^ Nat.log 2 ⌊x⁻¹⌋₊)⁻¹⌋ := Int.floor_nonneg.mpr hpos.le
      omega

theorem clog_le_63 (x : ℚ) (h63 : x ≤ (2 : ℚ) ^ (63 : Nat)) : Int.clog 2 x ≤ 63 := by
  by_cases hx : 0 < x
  · refine (Int.le_zpow_iff_clog_le (by decide) hx).mp ?_
    have h : ((2 : Nat) : ℚ) ^ ((63 : Nat) : Int) = (2 : ℚ) ^ (63 : Nat) := by
      rw [zpow_natCast]
      norm_num
    rw [show (63 : Int) = ((63 : Nat) : Int) from rfl, h]
    exact h63
  · rw [Int.clog_of_right_le_zero 2 (not_lt.mp hx)]
    decide

theorem foldFilter_of_log2 (Log : Float64 → Float64) (orig : BloomFilter) (x y : ℚ)
    (hprod : Float64.mul (Float64.div (Float64.ofInt orig.size) (Float64.ofInt orig.advised))
        (Float64.ofInt orig.nadded) = Float64.fin x)
    (hlog : Float64.Log2 Log (Float64.fin x) = Float64.fin y)
    (hceil : ⌈y⌉ = Int.clog 2 x) (h63 : x ≤ (2 : ℚ) ^ (63 : Nat)) :
    FoldFilter Log orig = some (FoldFilterWithSize orig (nextPowerOfTwo ⌈x⌉₊)) := by
  obtain ⟨hlt, hdiv⟩ := clog_target x h63
  have hc63 := clog_le_63 x h63
  unfold FoldFilter
  simp only [hprod, hlog, Float64.pow2Ceil, hceil]
  rw [if_neg (by omega)]
  by_cases hu : Int.clog 2 x < -1074
  · rw [if_pos hu]
    have hx1 : x < 1 := by
      by_contra h
      rw [Int.clog_of_one_le_right 2 (not_lt.mp h)] at hu
      omega
    have h0 : Float64.toUint64 (Float64.fin 0) = some 0 := by
      simp [Float64.toUint64]
    rw [h0]
    simp only
    rw [fold_congr_div orig 0 (nextPowerOfTwo ⌈x⌉₊) (by rw [nextPowerOfTwo_lt_one x hx1])]
  · rw [if_neg hu]
    have hpos : (-1 : ℚ) < (2 : ℚ) ^ Int.clog 2 x :=
      lt_trans (by norm_num) (zpow_pos (by norm_num) _)
    simp only [Float64.toUint64]
    rw [if_pos ⟨hpos, hlt⟩]
    simp only
    rw [fold_congr_div orig _ _ hdiv]

theorem log2_pow (Log : Float64 → Float64) (k : Nat) (hk : k ≤ 63) :
    Float64.Log2 Log (Float64.fin ((2 : ℚ) ^ k)) = Float64.fin (k : ℚ) := by
  have hne : (2 : ℚ) ^ k ≠ 0 := by positivity
  have hlogk : Int.log 2 |(2 : ℚ) ^ k| = (k : Int) := by
    rw [abs_of_pos (by positivity)]
    have := @Int.log_zpow ℚ _ _ 2 (by decide) (k : Int)
    simpa using this
  have hfrac : (2 : ℚ) ^ k / (2 : ℚ) ^ ((k : Int) + 1) = 1 / 2 := by
    rw [zpow_add_one₀ (by norm_num), zpow_natCast]
    field_simp
  have hk53 : |(k : Int)| ≤ 2 ^ 53 := by
    rw [abs_of_nonneg (by omega)]
    omega
  have hof := ofInt_exact (k : Int) hk53
  unfold Float64.Log2 Float64.Frexp
  simp only [hne, if_false, hlogk, hfrac, if_true, add_sub_cancel_right]
  simpa using hof

theorem foldFilter_pow2 (Log : Float64 → Float64) (orig : BloomFilter) (k : Nat) (hk : k ≤ 63)
    (hprod : Float64.mul (Float64.div (Float64.ofInt orig.size) (Float64.ofInt orig.advised))
        (Float64.ofInt orig.nadded) = Float64.fin ((2 : ℚ) ^ k)) :
    FoldFilter Log orig = some (FoldFilterWithSize orig (nextPowerOfTwo ⌈(2 : ℚ) ^ k⌉₊)) := by
  refine foldFilter_of_log2 Log orig _ (k : ℚ) hprod (log2_pow Log k hk) ?_ ?_
  · have := @Int.clog_zpow ℚ _ _ 2 (by decide) (k : Int)
    rw [Int.ceil_natCast]
    simpa using this.symm
  · exact pow_le_pow_right₀ (by norm_num) hk

theorem round_natCast (n : Nat) (h : n ≤ 2 ^ 53) :
    Float64.round (n : ℚ) = Float64.fin (n : ℚ) := by
  have := round_intCast (n : Int) (by rw [abs_of_nonneg (by omega)]; exact_mod_cast h)
  simpa using this

theorem ofInt_natCast (n : Nat) (h : n ≤ 2 ^ 53) :
    Float64.ofInt (n : Int) = Float64.fin (n : ℚ) := by
  unfold Float64.ofInt
  rw [Int.cast_natCast]
  exact round_natCast n h

theorem div_fin (a b : ℚ) (hb : b ≠ 0) :
    Float64.div (Float64.fin a) (Float64.fin b) = Float64.round (a / b) := by
  simp [Float64.div, hb]

theorem mul_fin (a b : ℚ) :
    Float64.mul (Float64.fin a) (Float64.fin b) = Float64.round (a * b) := rfl

theorem smallSketch_product :
    Float64.mul (Float64.div (Float64.ofInt smallSketch.size) (Float64.ofInt smallSketch.advised))
        (Float64.ofInt smallSketch.nadded) =
      Float64.fin ((smallSketch.size : ℚ) / (smallSketch.advised : ℚ) *
        (smallSketch.nadded : ℚ)) := by
  have e1 : (((1024 : Nat) : ℚ) / ((16 : Nat) : ℚ)) = ((64 : Nat) : ℚ) := by norm_num
  have e2 : (((64 : Nat) : ℚ) * ((2 : Nat) : ℚ)) = ((128 : Nat) : ℚ) := by norm_num
  show Float64.mul (Float64.div (Float64.ofInt ((1024 : Nat) : Int))
      (Float64.ofInt ((16 : Nat) : Int))) (Float64.ofInt ((2 : Nat) : Int)) =
    Float64.fin (((1024 : Nat) : ℚ) / ((16 : Nat) : ℚ) * ((2 : Nat) : ℚ))
  rw [ofInt_natCast 1024 (by decide), ofInt_natCast 16 (by decide), ofInt_natCast 2 (by decide),
    div_fin _ _ (by norm_num), e1, round_natCast 64 (by decide), mul_fin, e2,
    round_natCast 128 (by decide)]

theorem hugeSketch_product :
    Float64.mul (Float64.div (Float64.ofInt hugeSketch.size) (Float64.ofInt hugeSketch.advised))
        (Float64.ofInt hugeSketch.nadded) = Float64.fin ((2 : ℚ) ^ 6) := by
  have h1 : Float64.ofInt ((2 ^ 60 + 1 : Nat) : Int) = Float64.fin (2 ^ 60) := by
    have e : (((2 ^ 60 + 1 : Nat) : Int) : ℚ) = 2 ^ 60 + 1 := by norm_num
    unfold Float64.ofInt
    rw [e]
    exact round_2_60_succ
  have h2 : Float64.ofInt ((2 ^ 54 : Nat) : Int) = Float64.fin (2 ^ 54) := by
    unfold Float64.ofInt
    have := round_dyadic 1 54 (by decide) (by decide) (by norm_num)
    push_cast
    norm_num at this ⊢
    exact this
  have h3 : Float64.ofInt ((1 : Nat) : Int) = Float64.fin 1 := by
    have := ofInt_natCast 1 (by decide)
    simpa using this
  have e1 : ((2 : ℚ) ^ 60 / (2 : ℚ) ^ 54) = ((64 : Nat) : ℚ) := by norm_num
  have e2 : (((64 : Nat) : ℚ) * 1) = ((64 : Nat) : ℚ) := by norm_num
  show Float64.mul (Float64.div (Float64.ofInt ((2 ^ 60 + 1 : Nat) : Int))
      (Float64.ofInt ((2 ^ 54 : Nat) : Int))) (Float64.ofInt ((1 : Nat) : Int)) = _
  rw [h1, h2, h3, div_fin _ _ (by norm_num), e1, round_natCast 64 (by decide), mul_fin, e2,
    round_natCast 64 (by decide)]
  norm_num

theorem roundHalfEven_near (s : ℚ) (f : Int) (h : |s - (f : ℚ)| < 1 / 2) :
    roundHalfEven s = f := by
  rw [abs_lt] at h
  by_cases hle : (f : ℚ) ≤ s
  · exact roundHalfEven_down s f hle h.2
  · have hlt : s < (f : ℚ) := not_le.mp hle
    have hf : ⌊s⌋ = f - 1 := Int.floor_eq_iff.mpr ⟨by push_cast; linarith, by push_cast; linarith⟩
    unfold roundHalfEven
    rw [hf, if_neg (by push_cast; linarith), if_pos (by push_cast; linarith)]
    omega

theorem round_eval (q : ℚ) (e f : Int) (h1 : (2 : ℚ) ^ e ≤ |q|) (h2 : |q| < (2 : ℚ) ^ (e + 1))
    (he : -1022 ≤ e) (he2 : e ≤ 1022) (hf : |q / (2 : ℚ) ^ (e - 52) - (f : ℚ)| < 1 / 2) :
    Float64.round q = Float64.fin ((f : ℚ) * (2 : ℚ) ^ (e - 52)) := by
  have hu : max (e - 52) (-1074) = e - 52 := max_eq_left (by omega)
  have hpow : (0 : ℚ) < (2 : ℚ) ^ (e - 52) := by positivity
  rw [round_of_log q e h1 h2, hu, roundHalfEven_near _ f hf]
  have hs : |q / (2 : ℚ) ^ (e - 52)| < (2 : ℚ) ^ (53 : Nat) := by
    rw [abs_div, abs_of_pos hpow, div_lt_iff₀ hpow]
    have : (2 : ℚ) ^ (53 : Nat) * (2 : ℚ) ^ (e - 52) = (2 : ℚ) ^ (e + 1) := by
      rw [← zpow_natCast, ← zpow_add₀ (by norm_num)]
      congr 1
      push_cast
      ring
    rw [this]
    exact h2
  have hfq : |(f : ℚ)| < (2 : ℚ) ^ (53 : Nat) + 1 / 2 := by
    have h3 : |(f : ℚ)| ≤ |q / (2 : ℚ) ^ (e - 52)| + |q / (2 : ℚ) ^ (e - 52) - (f : ℚ)| := by
      have := abs_sub_abs_le_abs_sub (f : ℚ) (q / (2 : ℚ) ^ (e - 52))
      rw [abs_sub_comm (f : ℚ)] at this
      linarith
    linarith
  have hfz : |f| ≤ 2 ^ 53 := by
    have h4 : ((|f| : Int) : ℚ) < ((2 ^ 53 + 1 : Int) : ℚ) := by
      rw [Int.cast_abs]
      push_cast
      linarith
    have h5 : |f| < 2 ^ 53 + 1 := by exact_mod_cast h4
    omega
  rw [if_neg]
  rw [not_le, abs_mul, abs_of_pos hpow]
  have h6 : |(f : ℚ)| ≤ (2 : ℚ) ^ (53 : Nat) := by
    rw [← Int.cast_abs]
    exact_mod_cast hfz
  calc |(f : ℚ)| * (2 : ℚ) ^ (e - 52) ≤ (2 : ℚ) ^ (53 : Nat) * (2 : ℚ) ^ (e - 52) :=
        mul_le_mul_of_nonneg_right h6 hpow.le
    _ = (2 : ℚ) ^ (e + 1) := by
        rw [← zpow_natCast, ← zpow_add₀ (by norm_num)]
        congr 1
        push_cast
        ring
    _ ≤ (2 : ℚ) ^ (1023 : Int) := zpow_le_zpow_right₀ (by norm_num) (by omega)
    _ < (2 : ℚ) ^ (1024 : Nat) := by
        rw [← zpow_natCast]
        exact zpow_lt_zpow_right₀ (by norm_num) (by norm_num)

theorem round_inv_Ln2 :
    Float64.round (1 / Ln2) = Float64.fin (6497320848556798 / 2 ^ 52) := by
  have h := round_eval (1 / Ln2) 0 6497320848556798 (by norm_num [Ln2, abs_of_pos])
    (by norm_num [Ln2, abs_of_pos]) (by decide) (by decide) (by
      rw [abs_lt]
      constructor <;> norm_num [Ln2])
  rw [h]
  norm_num

theorem log2_tableLog_192 :
    Float64.Log2 tableLog (Float64.fin 192) = Float64.fin (4269954286483373 / 2 ^ 49) := by
  have hlog : Int.log 2 |(192 : ℚ)| = 7 :=
    log_eq_of_bounds 192 7 (by norm_num [abs_of_pos]) (by norm_num [abs_of_pos])
  have hfrac : (192 : ℚ) / (2 : ℚ) ^ ((7 : Int) + 1) = 3 / 4 := by norm_num
  have hne : Float64.fin (3 / 4) ≠ Float64.fin (1 / 2) := by
    intro h
    have := Float64.fin.inj h
    norm_num at this
  have hmul : Float64.round (-2591209748590025 / 2 ^ 53 * (6497320848556798 / 2 ^ 52)) =
      Float64.fin (-7476650908387933 / 2 ^ 54) := by
    have h := round_eval (-2591209748590025 / 2 ^ 53 * (6497320848556798 / 2 ^ 52)) (-2)
      (-7476650908387933) (by norm_num [abs_of_neg]) (by norm_num [abs_of_neg]) (by decide)
      (by decide) (by
        rw [abs_lt]
        constructor <;> norm_num)
    rw [h]
    norm_num
  have hadd : Float64.round (-7476650908387933 / 2 ^ 54 + 8) =
      Float64.fin (4269954286483373 / 2 ^ 49) := by
    have h := round_eval (-7476650908387933 / 2 ^ 54 + 8) 2 8539908572966746
      (by norm_num [abs_of_pos]) (by norm_num [abs_of_pos]) (by decide) (by decide) (by
        rw [abs_lt]
        constructor <;> norm_num)
    rw [h]
    norm_num
  have h8 : Float64.ofInt 8 = Float64.fin 8 := by
    have := ofInt_exact 8 (by decide)
    norm_num at this
    exact this
  have hfx : Float64.Frexp (Float64.fin 192) = (Float64.fin (3 / 4), 8) := by
    have h0 : ¬ (192 : ℚ) = 0 := by norm_num
    simp only [Float64.Frexp, h0, if_false, hlog, hfrac]
    rfl
  unfold Float64.Log2
  rw [hfx]
  simp only
  rw [if_neg hne]
  unfold tableLog
  rw [if_pos rfl, round_inv_Ln2, mul_fin, hmul, h8, add_fin, hadd]

theorem midSketch_product :
    Float64.mul (Float64.div (Float64.ofInt midSketch.size) (Float64.ofInt midSketch.advised))
        (Float64.ofInt midSketch.nadded) =
      Float64.fin ((midSketch.size : ℚ) / (midSketch.advised : ℚ) * (midSketch.nadded : ℚ)) := by
  have e1 : (((1024 : Nat) : ℚ) / ((16 : Nat) : ℚ)) = ((64 : Nat) : ℚ) := by norm_num
  have e2 : (((64 : Nat) : ℚ) * ((3 : Nat) : ℚ)) = ((192 : Nat) : ℚ) := by norm_num
  show Float64.mul (Float64.div (Float64.ofInt ((1024 : Nat) : Int))
      (Float64.ofInt ((16 : Nat) : Int))) (Float64.ofInt ((3 : Nat) : Int)) =
    Float64.fin (((1024 : Nat) : ℚ) / ((16 : Nat) : ℚ) * ((3 : Nat) : ℚ))
  rw [ofInt_natCast 1024 (by decide), ofInt_natCast 16 (by decide), ofInt_natCast 3 (by decide),
    div_fin _ _ (by norm_num), e1, round_natCast 64 (by decide), mul_fin, e2,
    round_natCast 192 (by decide)]

theorem midSketch_quotient :
    (midSketch.size : ℚ) / (midSketch.advised : ℚ) * (midSketch.nadded : ℚ) = 192 := by
  norm_num [midSketch, smallSketch]

theorem clog_192 : Int.clog 2 (192 : ℚ) = 8 := by
  have h : Nat.clog 2 192 = 8 := by
    apply le_antisymm
    · exact (Nat.le_pow_iff_clog_le (by decide)).mp (by decide)
    · exact (Nat.pow_lt_iff_lt_clog (by decide)).mp (by decide)
  have := @Int.clog_natCast ℚ _ _ 2 192
  rw [h] at this
  exact_mod_cast this

/-- C16, as amended: for a source sketch whose binary64 value `bitsPerItem * nadded`
is the exact quotient `size * nadded / advised` and is at most `2^63`,
`FoldFilter(orig)` is `FoldFilterWithSize(orig, t)` with
`t = nextPowerOfTwo(ceil(size * nadded / advised))`, first whenever the quotient
is a power of two, whatever `math.Log` returns, and second whenever `math.Log2`
of the quotient is a finite value whose ceiling is the ceiling of the exact
base-two logarithm; this `t` is the smallest power of two that is at least
`size * nadded / advised`. -/
theorem C16_auto_fold (Log : Float64 → Float64) (orig : BloomFilter)
    (hexact :
      Float64.mul (Float64.div (Float64.ofInt orig.size) (Float64.ofInt orig.advised))
          (Float64.ofInt orig.nadded) =
        Float64.fin ((orig.size : ℚ) / (orig.advised : ℚ) * (orig.nadded : ℚ)))
    (hfit : (orig.size : ℚ) / (orig.advised : ℚ) * (orig.nadded : ℚ) ≤ (2 : ℚ) ^ (63 : Nat)) :
    (∀ k : Nat, (orig.size : ℚ) / (orig.advised : ℚ) * (orig.nadded : ℚ) = (2 : ℚ) ^ k →
      FoldFilter Log orig =
        some (FoldFilterWithSize orig
          (nextPowerOfTwo ⌈(orig.size : ℚ) / (orig.advised : ℚ) * (orig.nadded : ℚ)⌉₊))) ∧
    (∀ y : ℚ,
      Float64.Log2 Log
          (Float64.fin ((orig.size : ℚ) / (orig.advised : ℚ) * (orig.nadded : ℚ))) =
        Float64.fin y →
      ⌈y⌉ = Int.clog 2 ((orig.size : ℚ) / (orig.advised : ℚ) * (orig.nadded : ℚ)) →
      FoldFilter Log orig =
        some (FoldFilterWithSize orig
          (nextPowerOfTwo ⌈(orig.size : ℚ) / (orig.advised : ℚ) * (orig.nadded : ℚ)⌉₊))) ∧
    (orig.size : ℚ) / (orig.advised : ℚ) * (orig.nadded : ℚ) ≤
      (nextPowerOfTwo ⌈(orig.size : ℚ) / (orig.advised : ℚ) * (orig.nadded : ℚ)⌉₊ : ℚ) ∧
    (∀ e : Nat,
      (orig.size : ℚ) / (orig.advised : ℚ) * (orig.nadded : ℚ) ≤ ((2 ^ e : Nat) : ℚ) →
      nextPowerOfTwo ⌈(orig.size : ℚ) / (orig.advised : ℚ) * (orig.nadded : ℚ)⌉₊ ≤ 2 ^ e) := by
  refine ⟨fun k hk => ?_, fun y hlog hceil => foldFilter_of_log2 Log orig _ y hexact hlog hceil hfit,
    nextPowerOfTwo_ge _, fun e he => nextPowerOfTwo_least _ e he⟩
  have hk63 : k ≤ 63 := by
    rw [hk] at hfit
    exact (pow_le_pow_iff_right₀ (by norm_num)).mp hfit
  rw [hk] at hexact ⊢
  exact foldFilter_pow2 Log orig k hk63 hexact

/-- Witness of C16 with a `math.Log` that is known at `3/4` only.  On a sketch of
1024 bits advised for 16 items that holds 2 the quotient is `128 = 2^7` and the
logarithm is not consulted; with a third item the quotient is 192, `math.Log2`
returns `7.58...`, whose ceiling 8 is that of the exact logarithm. -/
theorem C16_auto_fold_witness :
    FoldFilter tableLog smallSketch =
      some (FoldFilterWithSize smallSketch
        (nextPowerOfTwo
          ⌈(smallSketch.size : ℚ) / (smallSketch.advised : ℚ) * (smallSketch.nadded : ℚ)⌉₊)) ∧
    FoldFilter tableLog midSketch =
      some (FoldFilterWithSize midSketch
        (nextPowerOfTwo
          ⌈(midSketch.size : ℚ) / (midSketch.advised : ℚ) * (midSketch.nadded : ℚ)⌉₊)) :=
  ⟨(C16_auto_fold tableLog smallSketch smallSketch_product
      (by norm_num [smallSketch])).1 7 (by norm_num [smallSketch]),
    (C16_auto_fold tableLog midSketch midSketch_product
      (by rw [midSketch_quotient]; norm_num)).2.1 (4269954286483373 / 2 ^ 49)
      (by rw [midSketch_quotient]; exact log2_tableLog_192)
      (by
        rw [midSketch_quotient, clog_192, Int.ceil_eq_iff]
        constructor <;> norm_num)⟩

/-- Counterexample to C16 as stated: for the size `2^60 + 1` advised for `2^54`
items with one item inserted, `float64(size)` rounds to `2^60`, the product is
64 and `FoldFilter` folds to 64 bits, two words, whatever `math.Log` returns,
while `size * nadded / advised` exceeds 64 and the stated target is 128 bits,
three words. -/
theorem C16_rounding_halves_fold :
    0 < hugeSketch.advised ∧ 1 ≤ hugeSketch.nadded ∧
    (∀ Log : Float64 → Float64,
      FoldFilter Log hugeSketch = some (FoldFilterWithSize hugeSketch 64)) ∧
    nextPowerOfTwo
      ⌈(hugeSketch.size : ℚ) / (hugeSketch.advised : ℚ) * (hugeSketch.nadded : ℚ)⌉₊ = 128 ∧
    FoldFilterWithSize hugeSketch 64 = ⟨[5, 2]⟩ ∧
    FoldFilterWithSize hugeSketch 128 = ⟨[1, 2, 4]⟩ := by
  have hc : ⌈(hugeSketch.size : ℚ) / (hugeSketch.advised : ℚ) * (hugeSketch.nadded : ℚ)⌉₊ =
      65 := by
    rw [Nat.ceil_eq_iff (by decide)]
    constructor <;> norm_num [hugeSketch]
  have hclog : Nat.clog 2 65 = 7 := by
    apply le_antisymm
    · exact (Nat.le_pow_iff_clog_le (by decide)).mp (by decide)
    · exact (Nat.pow_lt_iff_lt_clog (by decide)).mp (by decide)
  refine ⟨by decide, by decide, fun Log => ?_, ?_, by decide, by decide⟩
  · have h := foldFilter_pow2 Log hugeSketch 6 (by decide) hugeSketch_product
    have h64 : nextPowerOfTwo ⌈(2 : ℚ) ^ 6⌉₊ = 64 := by
      have e : ((2 : ℚ) ^ 6) = ((2 ^ 6 : Nat) : ℚ) := by norm_num
      rw [e, Nat.ceil_natCast]
      unfold nextPowerOfTwo
      rw [Nat.clog_pow 2 6 (by decide)]
      rfl
    rw [h64] at h
    exact h
  · rw [hc]
    unfold nextPowerOfTwo
    rw [hclog]
    rfl

end Bloomfold
